import Mathlib

/-!
The CARD module of Blackjack (`card.c`).

A shallow embedding of `card_get` and of the draw loops of `test.c`, followed by the
properties of the deck supplier: uniqueness inside a generation, range validity,
balance, the automatic reshuffle and the state invariants.

Conventions of the embedding.

* The three `unsigned char [CARDS_PER_DECK]` tables are maps `Nat → Nat` from an index to
  the byte stored there; only the indices `0 .. CARDS_PER_DECK - 1` are ever read or
  written. The values stored are `0`, `1`, a suit `1..4` or a pattern `1..13`, so no
  store is truncated to a byte.
* `random()` is a stream `rng : Nat → Nat`: `rng i` is the value of the `i`-th call made
  by the process. The number of calls made so far is the field `Rand_calls` of the state.
* The `do ... while` loop of `card_get` need not terminate, so it takes a fuel: the
  largest number of samples it may draw. Out of fuel the call is `Outcome.spinning`.
-/

namespace Blackjack

/-- Modelled from the spec: `common.h` is not among the sources; the deck of the spec has
52 combinations. -/
def CARDS_PER_DECK : Nat := 52

/-- Modelled from the spec: `common.h` is not among the sources; the deck is "marked
shuffled" with the truth value `TRUE`. -/
def TRUE : Nat := 1

/-- Modelled from the spec: `common.h` is not among the sources; the deck is "marked
not-shuffled" with the truth value `FALSE`, the one that `!Deck_shuffled` tests for. -/
def FALSE : Nat := 0

/-- The macro `NUM_SUITS` of `card.c:23`. -/
def NUM_SUITS : Nat := 4

/-- The macro `CARDS_PER_SUIT` of `card.c:24`. -/
def CARDS_PER_SUIT : Nat := 13

/-- An `unsigned char` table: the byte stored at each index. -/
abbrev Table := Nat → Nat

/-- The store `a[i] = v`. -/
def arrSet (a : Table) (i v : Nat) : Table := fun j => if j = i then v else a j

/-- The file-scope variables of `card.c:26-32`, and the number of `random()` calls the
process has made. -/
structure State where
  Deck_shuffled : Nat
  Random_card : Nat
  Num_deals : Int
  Suit_list : Table
  Pattern_list : Table
  Card_taken : Table
  Rand_calls : Nat

/-- The state at program start: statics are zero-initialised (`Deck_shuffled = FALSE`),
and `random()` has not been called. -/
def initState : State where
  Deck_shuffled := FALSE
  Random_card := 0
  Num_deals := 0
  Suit_list := fun _ => 0
  Pattern_list := fun _ => 0
  Card_taken := fun _ => 0
  Rand_calls := 0

/-- An output argument of `card_get`: `NULL`, or the address of a byte of the caller. -/
inductive Ptr where
  | NULL : Ptr
  | addr (a : Nat) : Ptr
  deriving DecidableEq, Repr

/-- What a call of `card_get` does: it returns after storing `suit` and `pattern` through
its two arguments, or it ends the process with `exit(status)`, or it is still inside the
sampling loop when the fuel is spent. -/
inductive Outcome where
  | returned (suit pattern : Nat) (st : State) : Outcome
  | exited (status : Int) : Outcome
  | spinning : Outcome

/-- The loops of `card.c:63-69`: `for k = 1..NUM_SUITS`, `for j = 0..CARDS_PER_SUIT-1`,
`Suit_list[i] = k; ++i`, with `i` starting at `0`. -/
def fillSuits (Suit_list : Table) : Table :=
  ((List.range' 1 NUM_SUITS).foldl
    (fun (s : Table × Nat) k =>
      (List.range CARDS_PER_SUIT).foldl
        (fun (s : Table × Nat) _ => (arrSet s.1 s.2 k, s.2 + 1)) s)
    (Suit_list, 0)).1

/-- The loops of `card.c:72-78`: `for l = 0..NUM_SUITS-1`, `for m = 1..CARDS_PER_SUIT`,
`Pattern_list[n] = m; ++n`, with `n` starting at `0`. -/
def fillPatterns (Pattern_list : Table) : Table :=
  ((List.range NUM_SUITS).foldl
    (fun (s : Table × Nat) _ =>
      (List.range' 1 CARDS_PER_SUIT).foldl
        (fun (s : Table × Nat) m => (arrSet s.1 s.2 m, s.2 + 1)) s)
    (Pattern_list, 0)).1

/-- The loop of `card.c:81-83`: `for h = 0..CARDS_PER_DECK-1`, `Card_taken[h] = 0`. -/
def clearTaken (Card_taken : Table) : Table :=
  (List.range CARDS_PER_DECK).foldl (fun a h => arrSet a h 0) Card_taken

/-- The body of `if (!Deck_shuffled)` at `card.c:57-86`. -/
def shuffle (st : State) : State :=
  { st with
    Num_deals := 0
    Suit_list := fillSuits st.Suit_list
    Pattern_list := fillPatterns st.Pattern_list
    Card_taken := clearTaken st.Card_taken
    Deck_shuffled := TRUE }

/-- The loop of `card.c:92-94`: `do { Random_card = random() % CARDS_PER_DECK; }
while (Card_taken[Random_card] == 1)`. At most `fuel` samples are drawn, the first one
being `rng pos`; the result is the final `Random_card` and the number of `random()` calls
made by then, or `none` when the loop is still running after `fuel` samples. -/
def sampleLoop (rng : Nat → Nat) (Card_taken : Table) : Nat → Nat → Option (Nat × Nat)
  | 0, _ => none
  | fuel + 1, pos =>
    let Random_card := rng pos % CARDS_PER_DECK
    if Card_taken Random_card = 1 then sampleLoop rng Card_taken fuel (pos + 1)
    else some (Random_card, pos + 1)

/-- The function `card_get` of `card.c:55-111`. -/
def card_get (rng : Nat → Nat) (fuel : Nat) (st : State) (suit pattern : Ptr) : Outcome :=
  let st1 := if st.Deck_shuffled = 0 then shuffle st else st
  match sampleLoop rng st1.Card_taken fuel st1.Rand_calls with
  | none => Outcome.spinning
  | some (rc, pos) =>
    let st2 := { st1 with Random_card := rc, Rand_calls := pos }
    if suit = Ptr.NULL ∨ pattern = Ptr.NULL then Outcome.exited (-1)
    else
      let st3 := { st2 with
        Card_taken := arrSet st2.Card_taken st2.Random_card 1
        Num_deals := st2.Num_deals + 1 }
      let st4 := if st3.Num_deals = (CARDS_PER_DECK : Int) then { st3 with Deck_shuffled := FALSE }
        else st3
      Outcome.returned (st2.Suit_list st2.Random_card) (st2.Pattern_list st2.Random_card) st4

/-- A card as the caller reads it: the suit and the pattern. -/
abbrev Card := Nat × Nat

/-- The draw loop of `test.c:97-113` (and `166-179`): `n` calls
`card_get(&suit, &pattern)` in a row, with the cards they return, in order, and the state
after the last call. `none` when one of the calls does not return within the fuel. -/
def draws (rng : Nat → Nat) (fuel : Nat) : Nat → State → Option (List Card × State)
  | 0, st => some ([], st)
  | n + 1, st =>
    match card_get rng fuel st (Ptr.addr 0) (Ptr.addr 1) with
    | Outcome.returned s p st1 =>
      match draws rng fuel n st1 with
      | some (cs, st2) => some ((s, p) :: cs, st2)
      | none => none
    | _ => none

/-- The cards returned by `n` calls of `card_get` in a row. -/
def drawnCards (rng : Nat → Nat) (fuel n : Nat) (st : State) : Option (List Card) :=
  (draws rng fuel n st).map Prod.fst

/-- The state after `n` calls of `card_get` in a row (the state `st` itself when one of
them does not return within the fuel). -/
def stateAfter (rng : Nat → Nat) (fuel n : Nat) (st : State) : State :=
  ((draws rng fuel n st).map Prod.snd).getD st

/-- The stream `0, 1, ..., 51, 53, 54, ...`, which skips the value 52. -/
def skipStream (i : Nat) : Nat := i + i / 52

/-- The combination stored at index `i` of the populated tables. -/
def cardAt (i : Nat) : Card := (i / CARDS_PER_SUIT + 1, i % CARDS_PER_SUIT + 1)

/-- The 52 combinations `{1..4} x {1..13}`, suit by suit. -/
def fullDeck : List Card :=
  (List.range' 1 NUM_SUITS).flatMap fun s => (List.range' 1 CARDS_PER_SUIT).map fun p => (s, p)

/-- How many entries of the dealt table are marked, among the indices `0..51`. -/
def takenCount (Card_taken : Table) : Nat :=
  (List.range CARDS_PER_DECK).countP fun i => Card_taken i = 1

/-- The state in which `card_get` samples: the deck is populated first when it is not
marked shuffled. -/
def prepared (st : State) : State := if st.Deck_shuffled = 0 then shuffle st else st

/-- The state in which `card_get` returns when the loop ended on `rc` after `pos` calls
of `random()`, sampling in the state `st`. -/
def dealt (st : State) (rc pos : Nat) : State :=
  { st with
    Random_card := rc
    Rand_calls := pos
    Card_taken := arrSet st.Card_taken rc 1
    Num_deals := st.Num_deals + 1
    Deck_shuffled := if st.Num_deals + 1 = 52 then FALSE else st.Deck_shuffled }

/-- The suit and pattern tables hold the 52 combinations: index `i` holds `cardAt i`. -/
def Populated (st : State) : Prop :=
  ∀ i, i < 52 → st.Suit_list i = i / 13 + 1 ∧ st.Pattern_list i = i % 13 + 1

/-- The state `st` is inside a generation whose dealt indices are those of `L`, in the
order in which they were dealt. -/
structure InGeneration (L : List Nat) (st : State) : Prop where
  populated : Populated st
  nodup : L.Nodup
  below : ∀ i, i ∈ L → i < 52
  marked : ∀ i, i < 52 → (st.Card_taken i = 1 ↔ i ∈ L)
  deals : st.Num_deals = (L.length : Int)
  flag : st.Deck_shuffled = if L.length = 52 then FALSE else TRUE

/-- The index of the populated tables at which the combination `c` is stored. -/
def indexOf (c : Card) : Nat := (c.1 - 1) * CARDS_PER_SUIT + (c.2 - 1)

/-- A card in range: the suit is one of `1..4` and the pattern one of `1..13`. -/
def validCard (c : Card) : Prop := 1 ≤ c.1 ∧ c.1 ≤ 4 ∧ 1 ≤ c.2 ∧ c.2 ≤ 13

/-- The states that a process reaches on the stream `rng`: the initial state, and the
state in which any call of `card_get` with valid outputs returns from a reachable state. -/
inductive Reachable (rng : Nat → Nat) : State → Prop where
  | init : Reachable rng initState
  | step {st st1 : State} {fuel a b s p : Nat} :
      Reachable rng st →
      card_get rng fuel st (Ptr.addr a) (Ptr.addr b) = Outcome.returned s p st1 →
      Reachable rng st1

/-- The stream `0, ..., 0, 1, ..., 1, 2, ...` that repeats each value 54 times. -/
def stuckStream (i : Nat) : Nat := i / 54

/-- The stream `0, 1, 2, 3, ...`. -/
def countStream (i : Nat) : Nat := i

/-- The stream `0, 0, 1, 1, 2, 2, ...` that gives each value twice. -/
def pairStream (i : Nat) : Nat := i / 2

/-- The constant stream `5, 5, 5, ...`. -/
def fiveStream (_ : Nat) : Nat := 5

/-! ## The tables after a shuffle -/

theorem arrSet_same (a : Table) (i v : Nat) : arrSet a i v i = v := by
  simp [arrSet]

theorem arrSet_ne (a : Table) {i j : Nat} (v : Nat) (h : j ≠ i) : arrSet a i v j = a j := by
  simp [arrSet, h]

theorem fillSuits_apply (a : Table) {i : Nat} (h : i < 52) :
    fillSuits a i = i / 13 + 1 := by
  interval_cases i <;> rfl

theorem fillPatterns_apply (a : Table) {i : Nat} (h : i < 52) :
    fillPatterns a i = i % 13 + 1 := by
  interval_cases i <;> rfl

theorem clearTaken_apply (a : Table) {i : Nat} (h : i < 52) : clearTaken a i = 0 := by
  interval_cases i <;> rfl

/-! ## The sampling loop -/

/-- A sample that hits an entry not marked dealt ends the loop at once. -/
theorem sampleLoop_hit (rng : Nat → Nat) (T : Table) (fuel pos : Nat)
    (h : T (rng pos % 52) ≠ 1) :
    sampleLoop rng T (fuel + 1) pos = some (rng pos % 52, pos + 1) := by
  simp only [sampleLoop, CARDS_PER_DECK]
  rw [if_neg h]

/-- The index on which the loop ends is below 52 and is not marked dealt. -/
theorem sampleLoop_some (rng : Nat → Nat) (T : Table) :
    ∀ (fuel pos rc pos1 : Nat), sampleLoop rng T fuel pos = some (rc, pos1) →
      rc < 52 ∧ T rc ≠ 1 := by
  intro fuel
  induction fuel with
  | zero => intro pos rc pos1 h; simp [sampleLoop] at h
  | succ n ih =>
    intro pos rc pos1 h
    simp only [sampleLoop, CARDS_PER_DECK] at h
    by_cases hc : T (rng pos % 52) = 1
    · rw [if_pos hc] at h
      exact ih _ _ _ h
    · rw [if_neg hc] at h
      simp only [Option.some.injEq, Prod.mk.injEq] at h
      obtain ⟨h1, -⟩ := h
      subst h1
      exact ⟨Nat.mod_lt _ (by norm_num), hc⟩

/-- The loop ends within `fuel` samples as soon as one of its first `fuel` samples is an
entry not marked dealt. -/
theorem sampleLoop_of_hit (rng : Nat → Nat) (T : Table) :
    ∀ (fuel pos j : Nat), j < fuel → T (rng (pos + j) % 52) ≠ 1 →
      ∃ r, sampleLoop rng T fuel pos = some r := by
  intro fuel
  induction fuel with
  | zero => intro pos j hj; exact absurd hj (Nat.not_lt_zero j)
  | succ n ih =>
    intro pos j hj hfree
    by_cases hc : T (rng pos % 52) = 1
    · cases j with
      | zero => exact absurd hc hfree
      | succ i =>
        obtain ⟨r, hr⟩ := ih (pos + 1) i (by omega) (by
          rw [Nat.add_assoc, Nat.add_comm 1 i]
          exact hfree)
        refine ⟨r, ?_⟩
        simp only [sampleLoop, CARDS_PER_DECK]
        rw [if_pos hc]
        exact hr
    · exact ⟨_, sampleLoop_hit rng T n pos hc⟩

/-! ## One call of `card_get` -/

theorem card_get_unfold (rng : Nat → Nat) (fuel : Nat) (st : State) (sp pp : Ptr) :
    card_get rng fuel st sp pp =
      match sampleLoop rng (prepared st).Card_taken fuel (prepared st).Rand_calls with
      | none => Outcome.spinning
      | some (rc, pos) =>
        if sp = Ptr.NULL ∨ pp = Ptr.NULL then Outcome.exited (-1)
        else Outcome.returned ((prepared st).Suit_list rc) ((prepared st).Pattern_list rc)
          (dealt (prepared st) rc pos) := by
  unfold card_get
  simp only [prepared]
  cases hs : sampleLoop rng (if st.Deck_shuffled = 0 then shuffle st else st).Card_taken fuel
      (if st.Deck_shuffled = 0 then shuffle st else st).Rand_calls with
  | none => rfl
  | some x =>
    obtain ⟨rc, pos⟩ := x
    simp only [dealt, CARDS_PER_DECK, Nat.cast_ofNat]
    split_ifs <;> rfl

theorem card_get_eq (rng : Nat → Nat) (fuel : Nat) (st : State) (a b : Nat) :
    card_get rng fuel st (Ptr.addr a) (Ptr.addr b) =
      match sampleLoop rng (prepared st).Card_taken fuel (prepared st).Rand_calls with
      | none => Outcome.spinning
      | some (rc, pos) =>
        Outcome.returned ((prepared st).Suit_list rc) ((prepared st).Pattern_list rc)
          (dealt (prepared st) rc pos) := by
  rw [card_get_unfold]
  simp only [reduceCtorEq, or_self, if_false]

theorem prepared_of_unshuffled {st : State} (h : st.Deck_shuffled = 0) :
    prepared st = shuffle st := by
  simp [prepared, h]

theorem prepared_of_shuffled {st : State} (h : st.Deck_shuffled ≠ 0) :
    prepared st = st := by
  simp [prepared, h]

theorem card_get_returned {rng : Nat → Nat} {fuel : Nat} {st : State} {a b s p : Nat}
    {st1 : State} (h : card_get rng fuel st (Ptr.addr a) (Ptr.addr b) = Outcome.returned s p st1) :
    ∃ rc pos, sampleLoop rng (prepared st).Card_taken fuel (prepared st).Rand_calls
        = some (rc, pos) ∧
      s = (prepared st).Suit_list rc ∧ p = (prepared st).Pattern_list rc ∧
      st1 = dealt (prepared st) rc pos := by
  rw [card_get_eq] at h
  cases hs : sampleLoop rng (prepared st).Card_taken fuel (prepared st).Rand_calls with
  | none => rw [hs] at h; cases h
  | some x =>
    obtain ⟨rc, pos⟩ := x
    rw [hs] at h
    simp only [Outcome.returned.injEq] at h
    exact ⟨rc, pos, rfl, h.1.symm, h.2.1.symm, h.2.2.symm⟩

/-! ## Generations -/

theorem inGeneration_shuffle (st : State) : InGeneration [] (shuffle st) where
  populated := fun i hi => ⟨fillSuits_apply _ hi, fillPatterns_apply _ hi⟩
  nodup := List.nodup_nil
  below := fun i hi => by simp at hi
  marked := fun i hi => by simp [shuffle, clearTaken_apply _ hi]
  deals := by simp [shuffle]
  flag := by simp [shuffle]

theorem InGeneration.length_le {L : List Nat} {st : State} (g : InGeneration L st) :
    L.length ≤ 52 := by
  have h := (List.subperm_of_subset g.nodup
    (fun i hi => List.mem_range.2 (g.below i hi))).length_le
  simpa using h

theorem InGeneration.perm_range {L : List Nat} {st : State} (g : InGeneration L st)
    (h : L.length = 52) : L.Perm (List.range 52) :=
  (List.subperm_of_subset g.nodup
    (fun i hi => List.mem_range.2 (g.below i hi))).perm_of_length_le (by simp [h])

theorem InGeneration.shuffled {L : List Nat} {st : State} (g : InGeneration L st)
    (h : L.length < 52) : st.Deck_shuffled ≠ 0 := by
  rw [g.flag, if_neg (by omega)]
  simp [TRUE]

theorem InGeneration.unshuffled {L : List Nat} {st : State} (g : InGeneration L st)
    (h : L.length = 52) : st.Deck_shuffled = 0 := by
  rw [g.flag, if_pos h]
  rfl

/-- Dealing an index that is not marked extends the generation by that index. -/
theorem InGeneration.dealt {L : List Nat} {st : State} (g : InGeneration L st)
    {rc : Nat} (pos : Nat) (hlt : rc < 52) (hfree : st.Card_taken rc ≠ 1) :
    InGeneration (L ++ [rc]) (dealt st rc pos) where
  populated := g.populated
  nodup := by
    have hn : rc ∉ L := fun hm => hfree ((g.marked rc hlt).2 hm)
    exact List.nodup_append.2 ⟨g.nodup, List.nodup_singleton rc, by
      intro x hx hx1
      rw [List.mem_singleton] at hx1
      exact hn (hx1 ▸ hx)⟩
  below := by
    intro i hi
    rw [List.mem_append, List.mem_singleton] at hi
    rcases hi with hi | hi
    · exact g.below i hi
    · exact hi ▸ hlt
  marked := by
    intro i hi
    rw [List.mem_append, List.mem_singleton]
    by_cases hir : i = rc
    · subst hir
      simp [Blackjack.dealt, arrSet_same]
    · have := g.marked i hi
      simp [Blackjack.dealt, arrSet_ne _ _ hir, hir, this]
  deals := by
    simp [Blackjack.dealt, g.deals]
  flag := by
    have hd := g.deals
    have hf := g.flag
    have hl : L.length < 52 := by
      have hn : rc ∉ L := fun hm => hfree ((g.marked rc hlt).2 hm)
      have h1 : (rc :: L).length ≤ (List.range 52).length :=
        (List.subperm_of_subset (List.nodup_cons.2 ⟨hn, g.nodup⟩) (by
          intro i hi
          rw [List.mem_cons] at hi
          rcases hi with hi | hi
          · exact List.mem_range.2 (hi ▸ hlt)
          · exact List.mem_range.2 (g.below i hi))).length_le
      simp at h1
      omega
    rw [if_neg (by omega)] at hf
    simp only [Blackjack.dealt, hd, List.length_append, List.length_singleton, hf]
    by_cases h52 : L.length + 1 = 52
    · rw [if_pos h52, if_pos (by exact_mod_cast h52)]
    · rw [if_neg h52, if_neg (by exact_mod_cast h52)]

theorem card_get_shuffle (rng : Nat → Nat) (fuel : Nat) {st : State}
    (h : st.Deck_shuffled = 0) (sp pp : Ptr) :
    card_get rng fuel st sp pp = card_get rng fuel (shuffle st) sp pp := by
  have h1 : (shuffle st).Deck_shuffled ≠ 0 := by simp [shuffle, TRUE]
  unfold card_get
  simp only [h, h1, if_true, if_false]

/-- Inside a generation with cards left, a call that returns deals an index that was
not dealt before, and returns the combination at that index. -/
theorem card_get_step {rng : Nat → Nat} {fuel : Nat} {L : List Nat} {st : State}
    (g : InGeneration L st) (hl : L.length < 52) {a b s p : Nat} {st1 : State}
    (h : card_get rng fuel st (Ptr.addr a) (Ptr.addr b) = Outcome.returned s p st1) :
    ∃ rc, rc < 52 ∧ rc ∉ L ∧ (s, p) = cardAt rc ∧ InGeneration (L ++ [rc]) st1 := by
  obtain ⟨rc, pos, hs, h1, h2, h3⟩ := card_get_returned h
  rw [prepared_of_shuffled (g.shuffled hl)] at hs h1 h2 h3
  obtain ⟨hlt, hfree⟩ := sampleLoop_some _ _ _ _ _ _ hs
  refine ⟨rc, hlt, fun hm => hfree ((g.marked rc hlt).2 hm), ?_, ?_⟩
  · rw [h1, h2, (g.populated rc hlt).1, (g.populated rc hlt).2]
    rfl
  · rw [h3]
    exact g.dealt pos hlt hfree

/-- On a deck not marked shuffled, a call that returns starts a generation: it returns
the combination at the first index sampled, after one call of `random()`. -/
theorem card_get_fresh {rng : Nat → Nat} {fuel : Nat} {st : State}
    (hu : st.Deck_shuffled = 0) {a b s p : Nat} {st1 : State}
    (h : card_get rng fuel st (Ptr.addr a) (Ptr.addr b) = Outcome.returned s p st1) :
    (s, p) = cardAt (rng st.Rand_calls % 52) ∧
      InGeneration [rng st.Rand_calls % 52] st1 ∧ st1.Rand_calls = st.Rand_calls + 1 := by
  obtain ⟨rc, pos, hs, h1, h2, h3⟩ := card_get_returned h
  rw [prepared_of_unshuffled hu] at hs h1 h2 h3
  have g := inGeneration_shuffle st
  have hfree : (shuffle st).Card_taken (rng (shuffle st).Rand_calls % 52) ≠ 1 := by
    intro hc
    have := (g.marked _ (Nat.mod_lt _ (by norm_num))).1 hc
    simp at this
  cases fuel with
  | zero => simp [sampleLoop] at hs
  | succ n =>
    rw [sampleLoop_hit _ _ _ _ hfree] at hs
    simp only [Option.some.injEq, Prod.mk.injEq] at hs
    obtain ⟨hrc, hpos⟩ := hs
    have hpos1 : (shuffle st).Rand_calls = st.Rand_calls := rfl
    rw [hpos1] at hrc hpos hfree
    subst hrc
    have hlt : rng st.Rand_calls % 52 < 52 := Nat.mod_lt _ (by norm_num)
    refine ⟨?_, ?_, ?_⟩
    · rw [h1, h2, (g.populated _ hlt).1, (g.populated _ hlt).2]
      rfl
    · rw [h3]
      exact g.dealt pos hlt hfree
    · rw [h3, ← hpos]
      rfl

/-- On a deck not marked shuffled, a call with valid outputs returns on the first
sample. -/
theorem card_get_fresh_returns (rng : Nat → Nat) (fuel : Nat) {st : State}
    (hu : st.Deck_shuffled = 0) (a b : Nat) :
    card_get rng (fuel + 1) st (Ptr.addr a) (Ptr.addr b) =
      Outcome.returned (cardAt (rng st.Rand_calls % 52)).1 (cardAt (rng st.Rand_calls % 52)).2
        (dealt (shuffle st) (rng st.Rand_calls % 52) (st.Rand_calls + 1)) := by
  have g := inGeneration_shuffle st
  have hlt : rng st.Rand_calls % 52 < 52 := Nat.mod_lt _ (by norm_num)
  have hfree : (shuffle st).Card_taken (rng (shuffle st).Rand_calls % 52) ≠ 1 := by
    intro hc
    have := (g.marked _ (Nat.mod_lt _ (by norm_num))).1 hc
    simp at this
  rw [card_get_eq, prepared_of_unshuffled hu, sampleLoop_hit _ _ _ _ hfree]
  have hpos1 : (shuffle st).Rand_calls = st.Rand_calls := rfl
  simp only [hpos1, (g.populated _ hlt).1, (g.populated _ hlt).2]
  rfl

/-! ## Runs of draws -/

theorem draws_succ {rng : Nat → Nat} {fuel n : Nat} {st st2 : State} {cs : List Card}
    (h : draws rng fuel (n + 1) st = some (cs, st2)) :
    ∃ s p st1 cs1, card_get rng fuel st (Ptr.addr 0) (Ptr.addr 1) = Outcome.returned s p st1 ∧
      draws rng fuel n st1 = some (cs1, st2) ∧ cs = (s, p) :: cs1 := by
  rw [draws] at h
  cases hc : card_get rng fuel st (Ptr.addr 0) (Ptr.addr 1) with
  | spinning => rw [hc] at h; cases h
  | exited c => rw [hc] at h; cases h
  | returned s p st1 =>
    rw [hc] at h
    simp only at h
    cases hd : draws rng fuel n st1 with
    | none => rw [hd] at h; cases h
    | some x =>
      obtain ⟨cs1, st3⟩ := x
      rw [hd] at h
      simp only [Option.some.injEq, Prod.mk.injEq] at h
      exact ⟨s, p, st1, cs1, rfl, by rw [hd, h.2], h.1.symm⟩

/-- A run that stays inside one generation deals fresh indices one after the other. -/
theorem draws_inGeneration {rng : Nat → Nat} {fuel : Nat} :
    ∀ (n : Nat) (L : List Nat) (st st1 : State) (cs : List Card), InGeneration L st →
      L.length + n ≤ 52 → draws rng fuel n st = some (cs, st1) →
      ∃ L1, cs = L1.map cardAt ∧ L1.length = n ∧ InGeneration (L ++ L1) st1 := by
  intro n
  induction n with
  | zero =>
    intro L st st1 cs g _ h
    simp only [draws, Option.some.injEq, Prod.mk.injEq] at h
    refine ⟨[], by simp [h.1.symm], rfl, ?_⟩
    rw [List.append_nil, ← h.2]
    exact g
  | succ n ih =>
    intro L st st2 cs g hl h
    obtain ⟨s, p, st1, cs1, hc, hd, hcs⟩ := draws_succ h
    obtain ⟨rc, -, -, hcard, g1⟩ := card_get_step g (by omega) hc
    obtain ⟨L1, h1, h2, g2⟩ := ih (L ++ [rc]) st1 st2 cs1 g1
      (by simp only [List.length_append, List.length_singleton]; omega) hd
    refine ⟨rc :: L1, ?_, by simp [h2], ?_⟩
    · rw [hcs, hcard, h1]
      rfl
    · simpa using g2

/-- A run of at most 52 draws from a deck not marked shuffled is one generation. -/
theorem draws_fresh {rng : Nat → Nat} {fuel n : Nat} {st st1 : State} {cs : List Card}
    (hu : st.Deck_shuffled = 0) (hn : n + 1 ≤ 52)
    (h : draws rng fuel (n + 1) st = some (cs, st1)) :
    ∃ L, cs = L.map cardAt ∧ L.length = n + 1 ∧ InGeneration L st1 := by
  have h1 : draws rng fuel (n + 1) (shuffle st) = some (cs, st1) := by
    rw [draws, ← card_get_shuffle rng fuel hu]
    rw [draws] at h
    exact h
  obtain ⟨L, hL1, hL2, g⟩ := draws_inGeneration (n + 1) [] (shuffle st) st1 cs
    (inGeneration_shuffle st) (by simpa using hn) h1
  exact ⟨L, hL1, hL2, by simpa using g⟩

theorem map_cardAt_range : (List.range 52).map cardAt = fullDeck := by decide

/-- The cards of a whole generation are a permutation of the 52 combinations. -/
theorem generation_perm {rng : Nat → Nat} {fuel : Nat} {st st1 : State} {cs : List Card}
    (hu : st.Deck_shuffled = 0) (h : draws rng fuel 52 st = some (cs, st1)) :
    cs.Perm fullDeck ∧ ∃ L, InGeneration L st1 ∧ L.length = 52 := by
  obtain ⟨L, hL1, hL2, g⟩ := draws_fresh hu (by norm_num) h
  refine ⟨?_, L, g, hL2⟩
  rw [hL1, ← map_cardAt_range]
  exact (g.perm_range hL2).map cardAt

theorem drawnCards_some {rng : Nat → Nat} {fuel n : Nat} {st : State} {cs : List Card}
    (h : drawnCards rng fuel n st = some cs) : ∃ st1, draws rng fuel n st = some (cs, st1) := by
  unfold drawnCards at h
  cases hd : draws rng fuel n st with
  | none => rw [hd] at h; cases h
  | some x =>
    obtain ⟨cs1, st1⟩ := x
    rw [hd] at h
    simp only [Option.map_some', Option.some.injEq] at h
    exact ⟨st1, by rw [h]⟩

theorem mem_fullDeck (s p : Nat) :
    (s, p) ∈ fullDeck ↔ (1 ≤ s ∧ s ≤ 4 ∧ 1 ≤ p ∧ p ≤ 13) := by
  simp only [fullDeck, NUM_SUITS, CARDS_PER_SUIT, List.mem_flatMap, List.mem_map,
    List.mem_range'_1, Prod.mk.injEq]
  constructor
  · rintro ⟨a, ha, b, hb, rfl, rfl⟩
    omega
  · intro h
    exact ⟨s, by omega, p, by omega, rfl, rfl⟩

theorem nodup_fullDeck : fullDeck.Nodup := by decide

theorem cardAt_valid {rc : Nat} (h : rc < 52) : validCard (cardAt rc) := by
  simp only [validCard, cardAt, CARDS_PER_SUIT]
  omega

/-- A call that returns from a state inside a generation, exhausted or not, returns a
combination of the populated tables and leaves the deck inside a generation: the next
one, of which it is the first card, when the 52 cards had been dealt. -/
theorem card_get_any {rng : Nat → Nat} {fuel : Nat} {L : List Nat} {st : State}
    (g : InGeneration L st) {a b s p : Nat} {st1 : State}
    (h : card_get rng fuel st (Ptr.addr a) (Ptr.addr b) = Outcome.returned s p st1) :
    ∃ rc, rc < 52 ∧ (s, p) = cardAt rc ∧
      InGeneration (if L.length = 52 then [rc] else L ++ [rc]) st1 := by
  by_cases hl : L.length = 52
  · obtain ⟨h1, h2, -⟩ := card_get_fresh (g.unshuffled hl) h
    exact ⟨_, Nat.mod_lt _ (by norm_num), h1, by rw [if_pos hl]; exact h2⟩
  · have hlt : L.length < 52 := lt_of_le_of_ne g.length_le hl
    obtain ⟨rc, h1, -, h2, h3⟩ := card_get_step g hlt h
    exact ⟨rc, h1, h2, by rw [if_neg hl]; exact h3⟩

/-- A run of any length from a state inside a generation: every card is in range, and
the number of cards dealt in the generation of the final state is known. -/
theorem draws_any {rng : Nat → Nat} {fuel : Nat} :
    ∀ (n : Nat) (L : List Nat) (st st1 : State) (cs : List Card), InGeneration L st →
      1 ≤ L.length → draws rng fuel n st = some (cs, st1) →
      (∀ c, c ∈ cs → validCard c) ∧
        ∃ L1, InGeneration L1 st1 ∧ L1.length = (L.length - 1 + n) % 52 + 1 := by
  intro n
  induction n with
  | zero =>
    intro L st st1 cs g hl h
    simp only [draws, Option.some.injEq, Prod.mk.injEq] at h
    refine ⟨by simp [← h.1], L, h.2 ▸ g, ?_⟩
    have := g.length_le
    omega
  | succ n ih =>
    intro L st st2 cs g hl h
    obtain ⟨s, p, st1, cs1, hc, hd, hcs⟩ := draws_succ h
    obtain ⟨rc, hrc, hcard, g1⟩ := card_get_any g hc
    have hlen : (if L.length = 52 then [rc] else L ++ [rc]).length = L.length % 52 + 1 := by
      have := g.length_le
      split_ifs with h52
      · simp [h52]
      · simp only [List.length_append, List.length_singleton]
        omega
    obtain ⟨hv, L1, g2, hL1⟩ := ih _ st1 st2 cs1 g1 (by omega) hd
    refine ⟨?_, L1, g2, ?_⟩
    · intro c hc1
      rw [hcs, List.mem_cons] at hc1
      rcases hc1 with hc1 | hc1
      · rw [hc1, hcard]
        exact cardAt_valid hrc
      · exact hv c hc1
    · rw [hL1, hlen]
      omega

/-- A run of `n + 1` draws from a deck not marked shuffled: every card is in range, and
the final state is inside a generation in which `n % 52 + 1` cards have been dealt. -/
theorem draws_unshuffled {rng : Nat → Nat} {fuel n : Nat} {st st2 : State} {cs : List Card}
    (hu : st.Deck_shuffled = 0) (h : draws rng fuel (n + 1) st = some (cs, st2)) :
    (∀ c, c ∈ cs → validCard c) ∧ ∃ L, InGeneration L st2 ∧ L.length = n % 52 + 1 := by
  obtain ⟨s, p, st1, cs1, hc, hd, hcs⟩ := draws_succ h
  obtain ⟨hcard, g1, -⟩ := card_get_fresh hu hc
  obtain ⟨hv, L1, g2, hL1⟩ := draws_any n _ st1 st2 cs1 g1 (by simp) hd
  refine ⟨?_, L1, g2, by simpa using hL1⟩
  intro c hc1
  rw [hcs, List.mem_cons] at hc1
  rcases hc1 with hc1 | hc1
  · rw [hc1, hcard]
    exact cardAt_valid (Nat.mod_lt _ (by norm_num))
  · exact hv c hc1

/-- Inside a generation the marked entries are counted by the cards dealt. -/
theorem InGeneration.takenCount_eq {L : List Nat} {st : State} (g : InGeneration L st) :
    takenCount st.Card_taken = L.length := by
  have h1 : takenCount st.Card_taken = (List.range 52).countP (fun i => decide (i ∈ L)) := by
    unfold takenCount
    apply List.countP_congr
    intro i hi
    simp only [CARDS_PER_DECK, List.mem_range] at hi
    simpa using g.marked i hi
  have h2 : ((List.range 52).filter (fun i => decide (i ∈ L))).Perm L := by
    apply (List.perm_ext_iff_of_nodup ((List.nodup_range 52).filter _) g.nodup).2
    intro i
    simp only [List.mem_filter, List.mem_range, decide_eq_true_eq]
    exact ⟨fun h => h.2, fun h => ⟨g.below i h, h⟩⟩
  rw [h1, List.countP_eq_length_filter, h2.length_eq]

theorem draws_stateAfter {rng : Nat → Nat} {fuel n : Nat} {st : State} {cs : List Card}
    (h : drawnCards rng fuel n st = some cs) :
    draws rng fuel n st = some (cs, stateAfter rng fuel n st) := by
  obtain ⟨st1, hd⟩ := drawnCards_some h
  simp [stateAfter, hd]

/-- Inside a generation with cards left, a call whose first sample is an index not yet
dealt returns the combination at that index, after one call of `random()`. -/
theorem card_get_hit (rng : Nat → Nat) (fuel : Nat) {L : List Nat} {st : State}
    (g : InGeneration L st) (hl : L.length < 52) (a b : Nat)
    (hr : rng st.Rand_calls % 52 ∉ L) :
    card_get rng (fuel + 1) st (Ptr.addr a) (Ptr.addr b) =
      Outcome.returned (cardAt (rng st.Rand_calls % 52)).1 (cardAt (rng st.Rand_calls % 52)).2
        (dealt st (rng st.Rand_calls % 52) (st.Rand_calls + 1)) := by
  have hlt : rng st.Rand_calls % 52 < 52 := Nat.mod_lt _ (by norm_num)
  have hfree : st.Card_taken (rng st.Rand_calls % 52) ≠ 1 :=
    fun hc => hr ((g.marked _ hlt).1 hc)
  rw [card_get_eq, prepared_of_shuffled (g.shuffled hl), sampleLoop_hit _ _ _ _ hfree]
  simp only [(g.populated _ hlt).1, (g.populated _ hlt).2]
  rfl

/-- A stream that names fresh indices one after the other deals exactly these indices,
one sample per call. -/
theorem draws_of_stream (rng : Nat → Nat) (fuel : Nat) :
    ∀ (L1 L : List Nat) (st : State), InGeneration L st → (L ++ L1).Nodup →
      (∀ i, i ∈ L1 → i < 52) →
      (∀ j, j < L1.length → rng (st.Rand_calls + j) % 52 = L1.getD j 0) →
      ∃ st1, draws rng (fuel + 1) L1.length st = some (L1.map cardAt, st1) ∧
        st1.Rand_calls = st.Rand_calls + L1.length ∧ InGeneration (L ++ L1) st1 := by
  intro L1
  induction L1 with
  | nil =>
    intro L st g _ _ _
    exact ⟨st, rfl, rfl, by simpa using g⟩
  | cons r L2 ih =>
    intro L st g hn hb hr
    have hr0 : rng st.Rand_calls % 52 = r := by simpa using hr 0 (by simp)
    have hrL : r ∉ L := by
      intro hm
      exact (List.nodup_append.1 hn).2.2 hm (List.mem_cons_self r L2)
    have hlen : (L ++ r :: L2).length ≤ 52 := by
      have h0 : (L ++ r :: L2).Subperm (List.range 52) := List.subperm_of_subset hn (by
        intro i hi
        rw [List.mem_append] at hi
        rcases hi with hi | hi
        · exact List.mem_range.2 (g.below i hi)
        · exact List.mem_range.2 (hb i hi))
      have h1 := h0.length_le
      simpa using h1
    have hl : L.length < 52 := by
      simp only [List.length_append, List.length_cons] at hlen
      omega
    have hc := card_get_hit rng fuel g hl 0 1 (by rw [hr0]; exact hrL)
    rw [hr0] at hc
    have hfree : st.Card_taken r ≠ 1 :=
      fun h1 => hrL ((g.marked r (hb r (List.mem_cons_self r L2))).1 h1)
    have g1 : InGeneration (L ++ [r]) (dealt st r (st.Rand_calls + 1)) :=
      g.dealt _ (hb r (List.mem_cons_self r L2)) hfree
    obtain ⟨st1, hd, hpos, g2⟩ := ih (L ++ [r]) (dealt st r (st.Rand_calls + 1)) g1
      (by simpa using hn) (fun i hi => hb i (List.mem_cons_of_mem r hi)) (by
        intro j hj
        have := hr (j + 1) (by simpa using hj)
        have hcalls : (dealt st r (st.Rand_calls + 1)).Rand_calls = st.Rand_calls + 1 := rfl
        rw [hcalls, Nat.add_assoc, Nat.add_comm 1 j]
        simpa using this)
    refine ⟨st1, ?_, ?_, by simpa using g2⟩
    · rw [List.length_cons, draws, hc]
      simp only [hd]
      rfl
    · rw [hpos]
      have hcalls : (dealt st r (st.Rand_calls + 1)).Rand_calls = st.Rand_calls + 1 := rfl
      rw [hcalls, List.length_cons]
      omega

/-- The same, from a deck not marked shuffled: the first call populates the deck. -/
theorem draws_of_stream_fresh (rng : Nat → Nat) (fuel : Nat) {st : State}
    (hu : st.Deck_shuffled = 0) (L1 : List Nat) (hne : L1 ≠ []) (hn : L1.Nodup)
    (hb : ∀ i, i ∈ L1 → i < 52)
    (hr : ∀ j, j < L1.length → rng (st.Rand_calls + j) % 52 = L1.getD j 0) :
    ∃ st1, draws rng (fuel + 1) L1.length st = some (L1.map cardAt, st1) ∧
      st1.Rand_calls = st.Rand_calls + L1.length ∧ InGeneration L1 st1 := by
  obtain ⟨st1, hd, hpos, g⟩ := draws_of_stream rng fuel L1 [] (shuffle st)
    (inGeneration_shuffle st) (by simpa using hn) hb hr
  refine ⟨st1, ?_, hpos, by simpa using g⟩
  cases L1 with
  | nil => exact absurd rfl hne
  | cons r L2 =>
    rw [List.length_cons] at hd ⊢
    rw [draws, card_get_shuffle rng (fuel + 1) hu]
    rw [draws] at hd
    exact hd

/-- Two runs in a row are one run. -/
theorem draws_add (rng : Nat → Nat) (fuel : Nat) :
    ∀ (m n : Nat) (st st1 st2 : State) (cs1 cs2 : List Card),
      draws rng fuel m st = some (cs1, st1) → draws rng fuel n st1 = some (cs2, st2) →
      draws rng fuel (m + n) st = some (cs1 ++ cs2, st2) := by
  intro m
  induction m with
  | zero =>
    intro n st st1 st2 cs1 cs2 h1 h2
    simp only [draws, Option.some.injEq, Prod.mk.injEq] at h1
    rw [Nat.zero_add, ← h1.1, h1.2]
    exact h2
  | succ m ih =>
    intro n st st1 st2 cs1 cs2 h1 h2
    obtain ⟨s, p, st0, cs0, hc, hd, hcs⟩ := draws_succ h1
    have h3 := ih n st0 st1 st2 cs0 cs2 hd h2
    rw [Nat.add_right_comm, draws, hc]
    simp only [h3, hcs]
    rfl

theorem cardAt_indexOf {c : Card} (h : validCard c) : cardAt (indexOf c) = c := by
  obtain ⟨s, p⟩ := c
  simp only [validCard] at h
  simp only [cardAt, indexOf, CARDS_PER_SUIT, Prod.mk.injEq]
  omega

theorem indexOf_lt {c : Card} (h : validCard c) : indexOf c < 52 := by
  obtain ⟨s, p⟩ := c
  simp only [validCard] at h
  simp only [indexOf, CARDS_PER_SUIT]
  omega

theorem cardAt_injective {i j : Nat} (h : cardAt i = cardAt j) : i = j := by
  simp only [cardAt, CARDS_PER_SUIT, Prod.mk.injEq] at h
  omega

/-! ## Uniqueness, range and balance -/

/-- C1. In every state in which the deck is not marked shuffled, and on every stream of
`random()` values on which 52 calls of `card_get` in a row return, the 52 cards returned
are pairwise distinct and are exactly the combinations `{1..4} x {1..13}`, each of them
once. -/
theorem generation_unique (rng : Nat → Nat) (fuel : Nat) (st : State) (cs : List Card)
    (hu : st.Deck_shuffled = FALSE) (h : drawnCards rng fuel 52 st = some cs) :
    cs.length = 52 ∧ cs.Nodup ∧
      (∀ s p, (s, p) ∈ cs ↔ (1 ≤ s ∧ s ≤ 4 ∧ 1 ≤ p ∧ p ≤ 13)) ∧ cs.Perm fullDeck := by
  obtain ⟨st1, hd⟩ := drawnCards_some h
  have hp := (generation_perm hu hd).1
  have hn : cs.Nodup := hp.nodup_iff.2 nodup_fullDeck
  refine ⟨by rw [hp.length_eq]; rfl, hn, ?_, hp⟩
  intro s p
  rw [hp.mem_iff, mem_fullDeck]

/-- The statement C1 on the stream `0, 0, 7, 7, 14, 14, ...`, on which every second
sample is rejected, from the initial state. -/
theorem generation_unique_witness :
    (initState.Deck_shuffled = FALSE ∧
      drawnCards (fun i => 7 * (i / 2)) 2 52 initState
        = some ((List.range 52).map fun i => cardAt (7 * i % 52))) ∧
      ((List.range 52).map fun i => cardAt (7 * i % 52)).length = 52 ∧
      ((List.range 52).map fun i => cardAt (7 * i % 52)).Nodup ∧
      (∀ s p, (s, p) ∈ ((List.range 52).map fun i => cardAt (7 * i % 52)) ↔
        (1 ≤ s ∧ s ≤ 4 ∧ 1 ≤ p ∧ p ≤ 13)) ∧
      ((List.range 52).map fun i => cardAt (7 * i % 52)).Perm fullDeck :=
  have h : drawnCards (fun i => 7 * (i / 2)) 2 52 initState
      = some ((List.range 52).map fun i => cardAt (7 * i % 52)) := by decide!
  ⟨⟨rfl, h⟩, generation_unique (fun i => 7 * (i / 2)) 2 initState _ rfl h⟩

/-- C2. For every number `n` of draws from the initial state, on every stream on which
they return, every card returned has its suit in `1..4` and its pattern in `1..13`: never
`0`, never a larger value. Runs of 253 draws and more cross several reshuffles. -/
theorem range_validity (rng : Nat → Nat) (fuel n : Nat) (cs : List Card)
    (h : drawnCards rng fuel n initState = some cs) :
    ∀ c, c ∈ cs → 1 ≤ c.1 ∧ c.1 ≤ 4 ∧ 1 ≤ c.2 ∧ c.2 ≤ 13 := by
  obtain ⟨st1, hd⟩ := drawnCards_some h
  cases n with
  | zero =>
    simp only [draws, Option.some.injEq, Prod.mk.injEq] at hd
    simp [← hd.1]
  | succ n => exact (draws_unshuffled rfl hd).1

/-- The statement C2 on the 253 draws of `test.c`, on the stream `0, 5, 10, 15, ...`. -/
theorem range_validity_witness :
    drawnCards (fun i => 5 * i) 1 253 initState
        = some ((List.range 253).map fun i => cardAt (5 * i % 52)) ∧
      ∀ c, c ∈ (List.range 253).map (fun i => cardAt (5 * i % 52)) →
        1 ≤ c.1 ∧ c.1 ≤ 4 ∧ 1 ≤ c.2 ∧ c.2 ≤ 13 :=
  have h : drawnCards (fun i => 5 * i) 1 253 initState
      = some ((List.range 253).map fun i => cardAt (5 * i % 52)) := by decide!
  ⟨h, range_validity (fun i => 5 * i) 1 253 _ h⟩

/-- C3. Over the 52 draws of one generation, from a deck not marked shuffled, each of the
4 suits is returned exactly 13 times and each of the 13 patterns exactly 4 times. -/
theorem statistical_balance (rng : Nat → Nat) (fuel : Nat) (st : State) (cs : List Card)
    (hu : st.Deck_shuffled = FALSE) (h : drawnCards rng fuel 52 st = some cs) :
    (∀ s, 1 ≤ s → s ≤ 4 → cs.countP (fun c => c.1 = s) = 13) ∧
      (∀ p, 1 ≤ p → p ≤ 13 → cs.countP (fun c => c.2 = p) = 4) := by
  obtain ⟨st1, hd⟩ := drawnCards_some h
  have hp := (generation_perm hu hd).1
  constructor
  · intro s h1 h2
    rw [hp.countP_eq]
    interval_cases s <;> decide
  · intro p h1 h2
    rw [hp.countP_eq]
    interval_cases p <;> decide

/-- The statement C3 on the stream `51, 50, ..., 0`, which deals the deck backwards. -/
theorem statistical_balance_witness :
    (initState.Deck_shuffled = FALSE ∧
      drawnCards (fun i => 51 - i) 1 52 initState
        = some ((List.range 52).map fun i => cardAt (51 - i))) ∧
      (∀ s, 1 ≤ s → s ≤ 4 →
        ((List.range 52).map fun i => cardAt (51 - i)).countP (fun c => c.1 = s) = 13) ∧
      (∀ p, 1 ≤ p → p ≤ 13 →
        ((List.range 52).map fun i => cardAt (51 - i)).countP (fun c => c.2 = p) = 4) :=
  have h : drawnCards (fun i => 51 - i) 1 52 initState
      = some ((List.range 52).map fun i => cardAt (51 - i)) := by decide!
  ⟨⟨rfl, h⟩, statistical_balance (fun i => 51 - i) 1 initState _ rfl h⟩

/-! ## The reshuffle -/

/-- C4. After 52 draws from the initial state the 52 entries are marked dealt and the deck
is marked not shuffled; a 53rd call then returns on its first sample, whatever the
stream, with the tables populated, `Num_deals = 1` and exactly one entry marked dealt,
the one of the card just returned. -/
theorem automatic_reshuffle (rng : Nat → Nat) (fuel : Nat) (cs : List Card) (st52 : State)
    (h : draws rng fuel 52 initState = some (cs, st52)) (fuel1 a b : Nat) :
    takenCount st52.Card_taken = 52 ∧ st52.Num_deals = 52 ∧ st52.Deck_shuffled = FALSE ∧
      ∃ rc s p st53,
        card_get rng (fuel1 + 1) st52 (Ptr.addr a) (Ptr.addr b) = Outcome.returned s p st53 ∧
        rc < 52 ∧ (s, p) = cardAt rc ∧ Populated st53 ∧ st53.Deck_shuffled = TRUE ∧
        st53.Num_deals = 1 ∧ takenCount st53.Card_taken = 1 ∧
        ∀ i, i < 52 → (st53.Card_taken i = 1 ↔ i = rc) := by
  obtain ⟨-, L, g, hL⟩ := generation_perm (show initState.Deck_shuffled = 0 from rfl) h
  have hu := g.unshuffled hL
  refine ⟨by rw [g.takenCount_eq, hL], by rw [g.deals, hL]; rfl, hu, ?_⟩
  have hret := card_get_fresh_returns rng fuel1 hu a b
  obtain ⟨-, g1, -⟩ := card_get_fresh hu hret
  refine ⟨rng st52.Rand_calls % 52, _, _, _, hret, Nat.mod_lt _ (by norm_num), rfl,
    g1.populated, ?_, ?_, ?_, ?_⟩
  · rw [g1.flag]
    rfl
  · rw [g1.deals]
    rfl
  · rw [g1.takenCount_eq]
    rfl
  · intro i hi
    rw [g1.marked i hi, List.mem_singleton]

/-- The statement C4 on the stream `0, 1, 2, ...`, which deals the deck in order. -/
theorem automatic_reshuffle_witness :
    draws (fun i => i) 1 52 initState
        = some (fullDeck, stateAfter (fun i => i) 1 52 initState) ∧
      takenCount (stateAfter (fun i => i) 1 52 initState).Card_taken = 52 ∧
      (stateAfter (fun i => i) 1 52 initState).Num_deals = 52 ∧
      (stateAfter (fun i => i) 1 52 initState).Deck_shuffled = FALSE ∧
      ∃ rc s p st53,
        card_get (fun i => i) 1 (stateAfter (fun i => i) 1 52 initState) (Ptr.addr 0)
          (Ptr.addr 1) = Outcome.returned s p st53 ∧
        rc < 52 ∧ (s, p) = cardAt rc ∧ Populated st53 ∧ st53.Deck_shuffled = TRUE ∧
        st53.Num_deals = 1 ∧ takenCount st53.Card_taken = 1 ∧
        ∀ i, i < 52 → (st53.Card_taken i = 1 ↔ i = rc) :=
  have h : draws (fun i => i) 1 52 initState
      = some (fullDeck, stateAfter (fun i => i) 1 52 initState) :=
    draws_stateAfter (by decide!)
  ⟨h, automatic_reshuffle (fun i => i) 1 fullDeck _ h 0 0 1⟩

/-- C5. For every position `k` in `1..52` there is a stream of `random()` values, all
below 52, on which 53 draws from the initial state return and the 53rd card is the card
of the `k`-th draw. -/
theorem repeat_possible (k : Nat) (h1 : 1 ≤ k) (h2 : k ≤ 52) :
    ∃ rng fuel cs, (∀ i, rng i < 52) ∧ drawnCards rng fuel 53 initState = some cs ∧
      cs.length = 53 ∧ cs[52]? = cs[k - 1]? := by
  have hrng : ∀ i, (fun i => if i < 52 then i else k - 1) i < 52 := by
    intro i
    dsimp only
    split_ifs <;> omega
  obtain ⟨st52, hd, hpos, g⟩ := draws_of_stream_fresh (fun i => if i < 52 then i else k - 1) 0
    (show initState.Deck_shuffled = 0 from rfl) (List.range 52) (by decide) (List.nodup_range 52)
    (fun i hi => List.mem_range.1 hi) (by
      intro j hj
      have hj1 : j < 52 := by simpa using hj
      have h0 : initState.Rand_calls = 0 := rfl
      rw [h0, Nat.zero_add, List.getD_eq_getElem?_getD, List.getElem?_range hj1]
      simp only [hj1, if_true, Option.getD_some]
      omega)
  have hlen : (List.range 52).length = 52 := List.length_range 52
  rw [hlen] at hd hpos
  have hu := g.unshuffled hlen
  have hc := card_get_fresh_returns (fun i => if i < 52 then i else k - 1) 0 hu 0 1
  have hcalls : st52.Rand_calls = 52 := by rw [hpos]; rfl
  have hidx : (if st52.Rand_calls < 52 then st52.Rand_calls else k - 1) % 52 = k - 1 := by
    rw [hcalls]
    simp only [lt_self_iff_false, if_false]
    omega
  simp only [hidx] at hc
  have hd1 : draws (fun i => if i < 52 then i else k - 1) 1 1 st52
      = some ([cardAt (k - 1)], dealt (shuffle st52) (k - 1) (st52.Rand_calls + 1)) := by
    have hc1 : card_get (fun i => if i < 52 then i else k - 1) 1 st52 (Ptr.addr 0) (Ptr.addr 1)
        = Outcome.returned (cardAt (k - 1)).1 (cardAt (k - 1)).2
          (dealt (shuffle st52) (k - 1) (st52.Rand_calls + 1)) := hc
    rw [draws, hc1]
    rfl
  have hd53 := draws_add _ _ 52 1 _ _ _ _ _ hd hd1
  refine ⟨_, 1, (List.range 52).map cardAt ++ [cardAt (k - 1)], hrng, ?_, by simp, ?_⟩
  · unfold drawnCards
    rw [hd53]
    rfl
  · rw [List.getElem?_append_right (by simp), List.getElem?_append_left (by simp; omega),
      List.getElem?_map, List.getElem?_range (by omega)]
    simp

/-- The statement C5 at `k = 30`. -/
theorem repeat_possible_witness :
    ∃ rng fuel cs, (∀ i, rng i < 52) ∧ drawnCards rng fuel 53 initState = some cs ∧
      cs.length = 53 ∧ cs[52]? = cs[30 - 1]? :=
  repeat_possible 30 (by decide) (by decide)

/-- C6, refuted as stated. On the stream `0, 1, 2, ...` the 53 draws of `test.c` return,
and the 53rd card is the 1st card again, the ace of clubs `(1, 1)`: the 53rd call
samples `52 % 52 = 0` on the repopulated deck. -/
theorem first_card_repeated :
    drawnCards (fun i => i) 1 53 initState = some (fullDeck ++ [(1, 1)]) ∧
      (fullDeck ++ [((1, 1) : Card)])[0]? = some (1, 1) ∧
      (fullDeck ++ [((1, 1) : Card)])[52]? = some (1, 1) := by
  decide!

/-- C6, amended. After 52 draws from the initial state, the 1st card is the combination
at index `rng 0 % 52`, the 53rd call returns on its first sample the combination at that
sample's index, and the 53rd card differs from the 1st exactly when the two samples
differ modulo 52. -/
theorem first_vs_53rd (rng : Nat → Nat) (fuel : Nat) (cs : List Card) (st52 : State)
    (h : draws rng fuel 52 initState = some (cs, st52)) (fuel1 a b : Nat) :
    cs.head? = some (cardAt (rng 0 % 52)) ∧
      ∃ s p st53,
        card_get rng (fuel1 + 1) st52 (Ptr.addr a) (Ptr.addr b) = Outcome.returned s p st53 ∧
        (s, p) = cardAt (rng st52.Rand_calls % 52) ∧
        (some (s, p) ≠ cs.head? ↔ rng st52.Rand_calls % 52 ≠ rng 0 % 52) := by
  obtain ⟨-, L, g, hL⟩ := generation_perm (show initState.Deck_shuffled = 0 from rfl) h
  obtain ⟨s0, p0, st1, cs1, hc0, -, hcs⟩ := draws_succ h
  obtain ⟨hcard0, -, -⟩ := card_get_fresh (show initState.Deck_shuffled = 0 from rfl) hc0
  have h0 : initState.Rand_calls = 0 := rfl
  rw [h0] at hcard0
  have hhead : cs.head? = some (cardAt (rng 0 % 52)) := by
    rw [hcs, ← hcard0]
    rfl
  refine ⟨hhead, _, _, _, card_get_fresh_returns rng fuel1 (g.unshuffled hL) a b, rfl, ?_⟩
  rw [hhead]
  simp only [ne_eq, Option.some.injEq, Prod.mk.eta]
  exact not_congr ⟨fun h1 => cardAt_injective h1, fun h1 => by rw [h1]⟩

/-- The amended C6 on the stream `0, 1, ..., 51, 53, ...`: the 53rd call samples
`53 % 52 = 1`, and its card differs from the 1st. -/
theorem first_vs_53rd_witness :
    draws skipStream 1 52 initState
        = some (fullDeck, stateAfter skipStream 1 52 initState) ∧
      fullDeck.head? = some (cardAt (skipStream 0 % 52)) ∧
      ∃ s p st53,
        card_get skipStream 1 (stateAfter skipStream 1 52 initState)
          (Ptr.addr 0) (Ptr.addr 1) = Outcome.returned s p st53 ∧
        (s, p) = cardAt (skipStream (stateAfter skipStream 1 52 initState).Rand_calls % 52) ∧
        (some (s, p) ≠ fullDeck.head? ↔
          skipStream (stateAfter skipStream 1 52 initState).Rand_calls % 52
            ≠ skipStream 0 % 52) :=
  have h : draws skipStream 1 52 initState
      = some (fullDeck, stateAfter skipStream 1 52 initState) :=
    draws_stateAfter (by decide!)
  ⟨h, first_vs_53rd skipStream 1 fullDeck _ h 0 0 1⟩

/-- The state after a run of draws from a reachable state is reachable. -/
theorem reachable_draws {rng : Nat → Nat} {fuel : Nat} :
    ∀ (n : Nat) (st st1 : State) (cs : List Card), Reachable rng st →
      draws rng fuel n st = some (cs, st1) → Reachable rng st1 := by
  intro n
  induction n with
  | zero =>
    intro st st1 cs hr h
    simp only [draws, Option.some.injEq, Prod.mk.injEq] at h
    exact h.2 ▸ hr
  | succ n ih =>
    intro st st2 cs hr h
    obtain ⟨s, p, st1, cs1, hc, hd, -⟩ := draws_succ h
    exact ih st1 st2 cs1 (Reachable.step hr hc) hd

/-! ## The output arguments -/

/-- On a deck not marked shuffled the sampling loop ends on its first sample, whatever
the stream and the output arguments. -/
theorem card_get_fresh_not_spinning (rng : Nat → Nat) (fuel : Nat) {st : State}
    (hu : st.Deck_shuffled = 0) (sp pp : Ptr) :
    card_get rng (fuel + 1) st sp pp ≠ Outcome.spinning := by
  have g := inGeneration_shuffle st
  have hfree : (shuffle st).Card_taken (rng (shuffle st).Rand_calls % 52) ≠ 1 := by
    intro hc
    have := (g.marked _ (Nat.mod_lt _ (by norm_num))).1 hc
    simp at this
  rw [card_get_unfold, prepared_of_unshuffled hu, sampleLoop_hit _ _ _ _ hfree]
  simp only
  split_ifs <;> simp

/-- The branch taken by a call whose sampling loop has ended. -/
theorem card_get_of_sampled {rng : Nat → Nat} {fuel : Nat} {st : State} {r : Nat × Nat}
    (hs : sampleLoop rng (prepared st).Card_taken fuel (prepared st).Rand_calls = some r)
    (sp pp : Ptr) :
    (card_get rng fuel st sp pp = Outcome.exited (-1) ↔ (sp = Ptr.NULL ∨ pp = Ptr.NULL)) ∧
      (sp ≠ Ptr.NULL ∧ pp ≠ Ptr.NULL →
        ∃ s p st1, card_get rng fuel st sp pp = Outcome.returned s p st1) := by
  obtain ⟨rc, pos⟩ := r
  rw [card_get_unfold, hs]
  simp only
  by_cases hnull : sp = Ptr.NULL ∨ pp = Ptr.NULL
  · rw [if_pos hnull]
    refine ⟨⟨fun _ => hnull, fun _ => rfl⟩, fun h1 => ?_⟩
    rcases hnull with h2 | h2
    · exact absurd h2 h1.1
    · exact absurd h2 h1.2
  · rw [if_neg hnull]
    exact ⟨⟨fun h1 => (by cases h1), fun h1 => absurd h1 hnull⟩, fun _ => ⟨_, _, _, rfl⟩⟩

/-- A loop whose samples all hit entries marked dealt is still running after any number
of samples. -/
theorem sampleLoop_stuck (rng : Nat → Nat) (T : Table) :
    ∀ (fuel pos : Nat), (∀ j, T (rng (pos + j) % 52) = 1) →
      sampleLoop rng T fuel pos = none := by
  intro fuel
  induction fuel with
  | zero => intro pos _; rfl
  | succ n ih =>
    intro pos hall
    have h0 : T (rng pos % 52) = 1 := hall 0
    simp only [sampleLoop, CARDS_PER_DECK]
    rw [if_pos h0]
    exact ih (pos + 1) (fun j => by
      have := hall (j + 1)
      rw [Nat.add_assoc, Nat.add_comm 1 j]
      exact this)

/-- A call whose samples all hit entries marked dealt neither exits nor returns: it never
reaches the test of its output arguments. -/
theorem card_get_stuck (rng : Nat → Nat) (fuel : Nat) (st : State) (sp pp : Ptr)
    (hall : ∀ j, (prepared st).Card_taken (rng ((prepared st).Rand_calls + j) % 52) = 1) :
    card_get rng fuel st sp pp = Outcome.spinning := by
  rw [card_get_unfold, sampleLoop_stuck rng _ fuel _ hall]

theorem fiveStream_mod (k : Nat) : fiveStream k % 52 = 5 := rfl

/-- C7, refuted as stated. On the constant stream `5, 5, 5, ...` the first call deals
index 5. A second call made with a `NULL` suit pointer in that reachable state samples 5
again and again, an entry marked dealt: whatever the number of samples it is still in its
loop, so it never reaches the `NULL` test and never exits. -/
theorem null_call_never_exits :
    Reachable fiveStream (stateAfter fiveStream 1 1 initState) ∧
      ∀ fuel, card_get fiveStream fuel (stateAfter fiveStream 1 1 initState) Ptr.NULL
        (Ptr.addr 1) = Outcome.spinning :=
  have h5 : (prepared (stateAfter fiveStream 1 1 initState)).Card_taken 5 = 1 := by decide!
  ⟨reachable_draws 1 initState _ [(1, 6)] Reachable.init (draws_stateAfter (by decide!)),
    fun fuel => card_get_stuck fiveStream fuel _ Ptr.NULL (Ptr.addr 1)
      (fun j => by rw [fiveStream_mod]; exact h5)⟩

/-- C7, amended. A call of `card_get` ends the process only with `exit(-1)` and only when
the suit pointer or the pattern pointer is `NULL`. The test comes after the sampling
loop: when one of the first `fuel` samples is an entry not marked dealt, the call exits
with `-1` if and only if one of the pointers is `NULL`, and it returns a card when both
are valid; on a deck not marked shuffled this is so on every stream, from the first
sample on. When every sample is an entry marked dealt the call neither exits nor
returns, whatever the pointers: it is still sampling. -/
theorem invalid_output_target (rng : Nat → Nat) (st : State) (sp pp : Ptr) (fuel : Nat) :
    (∀ c, card_get rng fuel st sp pp = Outcome.exited c →
        c = -1 ∧ (sp = Ptr.NULL ∨ pp = Ptr.NULL)) ∧
      (∀ j, j < fuel →
        (prepared st).Card_taken (rng ((prepared st).Rand_calls + j) % 52) ≠ 1 →
        (card_get rng fuel st sp pp = Outcome.exited (-1) ↔ (sp = Ptr.NULL ∨ pp = Ptr.NULL)) ∧
        (sp ≠ Ptr.NULL ∧ pp ≠ Ptr.NULL →
          ∃ s p st1, card_get rng fuel st sp pp = Outcome.returned s p st1)) ∧
      (st.Deck_shuffled = FALSE → 0 < fuel →
        (card_get rng fuel st sp pp = Outcome.exited (-1) ↔ (sp = Ptr.NULL ∨ pp = Ptr.NULL)) ∧
        (sp ≠ Ptr.NULL ∧ pp ≠ Ptr.NULL →
          ∃ s p st1, card_get rng fuel st sp pp = Outcome.returned s p st1)) ∧
      ((∀ j, (prepared st).Card_taken (rng ((prepared st).Rand_calls + j) % 52) = 1) →
        card_get rng fuel st sp pp = Outcome.spinning) := by
  refine ⟨?_, ?_, ?_, card_get_stuck rng fuel st sp pp⟩
  · intro c hc
    rw [card_get_unfold] at hc
    cases hs : sampleLoop rng (prepared st).Card_taken fuel (prepared st).Rand_calls with
    | none => rw [hs] at hc; cases hc
    | some x =>
      obtain ⟨rc, pos⟩ := x
      rw [hs] at hc
      simp only at hc
      by_cases hnull : sp = Ptr.NULL ∨ pp = Ptr.NULL
      · rw [if_pos hnull, Outcome.exited.injEq] at hc
        exact ⟨hc.symm, hnull⟩
      · rw [if_neg hnull] at hc
        cases hc
  · intro j hj hfree
    obtain ⟨r, hr⟩ := sampleLoop_of_hit rng _ fuel _ j hj hfree
    exact card_get_of_sampled hr sp pp
  · intro hu hfuel
    have g := inGeneration_shuffle st
    have hfree : (prepared st).Card_taken (rng ((prepared st).Rand_calls + 0) % 52) ≠ 1 := by
      rw [prepared_of_unshuffled hu]
      intro hc
      have := (g.marked _ (Nat.mod_lt _ (by norm_num))).1 hc
      simp at this
    obtain ⟨r, hr⟩ := sampleLoop_of_hit rng _ fuel _ 0 hfuel hfree
    exact card_get_of_sampled hr sp pp

/-- The amended C7 on four calls: the first call of a process with a `NULL` suit pointer
exits; the fourth call on the stream `0, 0, 1, 1, 2, 2, ...`, whose first sample is
rejected, returns a card with both pointers valid and exits with a `NULL` pattern
pointer; the second call on the stream `5, 5, 5, ...` is still sampling after 7
samples. -/
theorem invalid_output_target_witness :
    card_get countStream 1 initState Ptr.NULL (Ptr.addr 1) = Outcome.exited (-1) ∧
      (∃ s p st1, card_get pairStream 2 (stateAfter pairStream 2 3 initState) (Ptr.addr 0)
        (Ptr.addr 1) = Outcome.returned s p st1) ∧
      card_get pairStream 2 (stateAfter pairStream 2 3 initState) (Ptr.addr 0) Ptr.NULL
        = Outcome.exited (-1) ∧
      card_get fiveStream 7 (stateAfter fiveStream 1 1 initState) Ptr.NULL Ptr.NULL
        = Outcome.spinning :=
  have hfree : (prepared (stateAfter pairStream 2 3 initState)).Card_taken
      (pairStream ((prepared (stateAfter pairStream 2 3 initState)).Rand_calls + 1) % 52)
        ≠ 1 := by decide!
  have h5 : (prepared (stateAfter fiveStream 1 1 initState)).Card_taken 5 = 1 := by decide!
  ⟨((invalid_output_target countStream initState Ptr.NULL (Ptr.addr 1) 1).2.2.1 rfl
      (by decide)).1.2 (Or.inl rfl),
    ((invalid_output_target pairStream (stateAfter pairStream 2 3 initState) (Ptr.addr 0)
      (Ptr.addr 1) 2).2.1 1 (by decide) hfree).2 ⟨by decide, by decide⟩,
    ((invalid_output_target pairStream (stateAfter pairStream 2 3 initState) (Ptr.addr 0)
      Ptr.NULL 2).2.1 1 (by decide) hfree).1.2 (Or.inr rfl),
    (invalid_output_target fiveStream (stateAfter fiveStream 1 1 initState) Ptr.NULL
      Ptr.NULL 7).2.2.2 (fun j => by rw [fiveStream_mod]; exact h5)⟩

/-! ## Every ordering of the deck -/

/-- C8. For every ordering `cards` of the 52 combinations and every state in which the
deck is not marked shuffled, there is a stream of `random()` values, all below 52, on
which 52 calls of `card_get` in a row return `cards`, in that order, with one sample per
call. -/
theorem every_ordering_possible (st : State) (hu : st.Deck_shuffled = FALSE)
    (cards : List Card) (hp : cards.Perm fullDeck) :
    ∃ rng, (∀ i, rng i < 52) ∧ drawnCards rng 1 52 st = some cards := by
  have hvalid : ∀ c, c ∈ cards → validCard c := by
    intro c hc
    obtain ⟨s, p⟩ := c
    exact (mem_fullDeck s p).1 (hp.mem_iff.1 hc)
  have hmap : (cards.map indexOf).map cardAt = cards := by
    rw [List.map_map]
    conv_rhs => rw [← List.map_id cards]
    exact List.map_congr_left fun c hc => cardAt_indexOf (hvalid c hc)
  have hlen : (cards.map indexOf).length = 52 := by
    rw [List.length_map, hp.length_eq]
    rfl
  have hnodup : (cards.map indexOf).Nodup := by
    apply List.Nodup.of_map cardAt
    rw [hmap]
    exact hp.nodup_iff.2 nodup_fullDeck
  have hbelow : ∀ i, i ∈ cards.map indexOf → i < 52 := by
    intro i hi
    obtain ⟨c, hc, rfl⟩ := List.mem_map.1 hi
    exact indexOf_lt (hvalid c hc)
  have hget : ∀ j, (cards.map indexOf).getD j 0 < 52 := by
    intro j
    by_cases hj : j < (cards.map indexOf).length
    · rw [List.getD_eq_getElem _ _ hj]
      exact hbelow _ (List.getElem_mem _)
    · rw [List.getD_eq_default _ _ (by omega)]
      norm_num
  obtain ⟨st1, hd, -, -⟩ := draws_of_stream_fresh
    (fun i => (cards.map indexOf).getD (i - st.Rand_calls) 0) 0 hu (cards.map indexOf)
    (by intro h0; rw [h0] at hlen; cases hlen) hnodup hbelow (by
      intro j _
      dsimp only
      rw [Nat.add_sub_cancel_left]
      exact Nat.mod_eq_of_lt (hget j))
  refine ⟨fun i => (cards.map indexOf).getD (i - st.Rand_calls) 0,
    fun i => hget (i - st.Rand_calls), ?_⟩
  rw [hlen, hmap] at hd
  unfold drawnCards
  rw [hd]
  rfl

/-- The statement C8 on the deck in reverse order, from the initial state. -/
theorem every_ordering_possible_witness :
    ∃ rng, (∀ i, rng i < 52) ∧ drawnCards rng 1 52 initState = some fullDeck.reverse :=
  every_ordering_possible initState rfl fullDeck.reverse (List.reverse_perm fullDeck)

/-! ## The state invariants -/

/-- A reachable state is the initial state or is inside a generation. -/
theorem reachable_inGeneration {rng : Nat → Nat} {st : State} (h : Reachable rng st) :
    st = initState ∨ ∃ L, InGeneration L st := by
  induction h with
  | init => exact Or.inl rfl
  | step _ hc ih =>
    right
    rcases ih with h0 | ⟨L, g⟩
    · subst h0
      exact ⟨_, (card_get_fresh (show initState.Deck_shuffled = 0 from rfl) hc).2.1⟩
    · obtain ⟨rc, -, -, g1⟩ := card_get_any g hc
      exact ⟨_, g1⟩

theorem takenCount_initState : takenCount initState.Card_taken = 0 := by decide

/-- C9. In every state reachable from the initial state by calls of `card_get` with
non-`NULL` outputs, `Num_deals` is the number of indices `i` in `0..51` with
`Card_taken[i] == 1`, and `0 <= Num_deals <= 52`. -/
theorem count_invariant (rng : Nat → Nat) (st : State) (h : Reachable rng st) :
    st.Num_deals = (takenCount st.Card_taken : Int) ∧ 0 ≤ st.Num_deals ∧ st.Num_deals ≤ 52 := by
  rcases reachable_inGeneration h with h0 | ⟨L, g⟩
  · subst h0
    rw [takenCount_initState]
    exact ⟨rfl, le_refl _, by decide⟩
  · have hl := g.length_le
    rw [g.takenCount_eq, g.deals]
    exact ⟨rfl, by omega, by omega⟩

/-- The statement C9 in the state after 60 draws, 8 cards into the second generation. -/
theorem count_invariant_witness :
    (stateAfter (fun i => 3 * i) 1 60 initState).Num_deals
        = (takenCount (stateAfter (fun i => 3 * i) 1 60 initState).Card_taken : Int) ∧
      0 ≤ (stateAfter (fun i => 3 * i) 1 60 initState).Num_deals ∧
      (stateAfter (fun i => 3 * i) 1 60 initState).Num_deals ≤ 52 :=
  count_invariant (fun i => 3 * i) _
    (reachable_draws 60 initState _ ((List.range 60).map fun i => cardAt (3 * i % 52))
      Reachable.init (draws_stateAfter (by decide!)))

theorem prepared_shuffled (st : State) : (prepared st).Deck_shuffled ≠ 0 := by
  by_cases h : st.Deck_shuffled = 0
  · rw [prepared_of_unshuffled h]
    simp [shuffle, TRUE]
  · rw [prepared_of_shuffled h]
    exact h

/-- C10. In the state in which any call of `card_get` returns, the deck is marked not
shuffled if and only if `Num_deals` is 52. Hence after `n ≥ 1` draws from the initial
state the deck is marked not shuffled exactly when `n` is a multiple of 52, with
`Num_deals = 52`; after every other draw it is marked shuffled with
`Num_deals = n % 52`, between 1 and 51. -/
theorem eager_reshuffle_flag (rng : Nat → Nat) (fuel : Nat) :
    (∀ (st st1 : State) (a b s p : Nat),
        card_get rng fuel st (Ptr.addr a) (Ptr.addr b) = Outcome.returned s p st1 →
        (st1.Deck_shuffled = FALSE ↔ st1.Num_deals = 52)) ∧
      (∀ (n : Nat) (cs : List Card) (st1 : State), 1 ≤ n →
        draws rng fuel n initState = some (cs, st1) →
        (st1.Deck_shuffled = FALSE ↔ n % 52 = 0) ∧
        (n % 52 = 0 → st1.Num_deals = 52) ∧
        (n % 52 ≠ 0 → st1.Deck_shuffled = TRUE ∧ st1.Num_deals = ((n % 52 : Nat) : Int) ∧
          1 ≤ st1.Num_deals ∧ st1.Num_deals < 52)) := by
  constructor
  · intro st st1 a b s p hc
    obtain ⟨rc, pos, -, -, -, h3⟩ := card_get_returned hc
    have hp := prepared_shuffled st
    rw [h3]
    simp only [dealt]
    split_ifs with h52
    · exact ⟨fun _ => h52, fun _ => rfl⟩
    · exact ⟨fun h0 => absurd h0 hp, fun h0 => absurd h0 h52⟩
  · intro n cs st1 hn hd
    obtain ⟨m, rfl⟩ : ∃ m, n = m + 1 := ⟨n - 1, by omega⟩
    obtain ⟨-, L, g, hL⟩ := draws_unshuffled (show initState.Deck_shuffled = 0 from rfl) hd
    have hf := g.flag
    have hdeals := g.deals
    refine ⟨?_, ?_, ?_⟩
    · rw [hf]
      split_ifs with h52
      · exact ⟨fun _ => by omega, fun _ => rfl⟩
      · exact ⟨fun h0 => by simp [TRUE, FALSE] at h0, fun h0 => by omega⟩
    · intro h0
      rw [hdeals]
      have : L.length = 52 := by omega
      rw [this]
      rfl
    · intro h0
      have hlt : L.length = (m + 1) % 52 := by omega
      have hne : L.length ≠ 52 := by omega
      rw [hf, if_neg hne, hdeals, hlt]
      refine ⟨rfl, rfl, ?_, ?_⟩
      · have : 1 ≤ (m + 1) % 52 := by omega
        exact_mod_cast this
      · have : (m + 1) % 52 < 52 := by omega
        exact_mod_cast this

/-- The statement C10 after the 104 draws of two whole generations, on the stream
`0, 1, 2, ...`, and for the first call of a process. -/
theorem eager_reshuffle_flag_witness :
    (((stateAfter (fun i => i) 1 104 initState).Deck_shuffled = FALSE ↔ 104 % 52 = 0) ∧
        (104 % 52 = 0 → (stateAfter (fun i => i) 1 104 initState).Num_deals = 52) ∧
        (104 % 52 ≠ 0 → (stateAfter (fun i => i) 1 104 initState).Deck_shuffled = TRUE ∧
          (stateAfter (fun i => i) 1 104 initState).Num_deals = ((104 % 52 : Nat) : Int) ∧
          1 ≤ (stateAfter (fun i => i) 1 104 initState).Num_deals ∧
          (stateAfter (fun i => i) 1 104 initState).Num_deals < 52)) ∧
      ((dealt (shuffle initState) 0 1).Deck_shuffled = FALSE ↔
        (dealt (shuffle initState) 0 1).Num_deals = 52) :=
  ⟨(eager_reshuffle_flag (fun i => i) 1).2 104 ((List.range 104).map fun i => cardAt (i % 52)) _
      (by decide) (draws_stateAfter (by decide!)),
    (eager_reshuffle_flag (fun i => i) 1).1 initState _ 0 1 _ _
      (card_get_fresh_returns (fun i => i) 0 rfl 0 1)⟩

/-! ## The number of samples of one call -/

/-- The loop ends on the first sample whose entry is not marked dealt, after one call of
`random()` for each sample up to that one. -/
theorem sampleLoop_first (rng : Nat → Nat) (T : Table) :
    ∀ (fuel pos j : Nat), j < fuel → (∀ i, i < j → T (rng (pos + i) % 52) = 1) →
      T (rng (pos + j) % 52) ≠ 1 →
      sampleLoop rng T fuel pos = some (rng (pos + j) % 52, pos + j + 1) := by
  intro fuel
  induction fuel with
  | zero => intro pos j hj; exact absurd hj (Nat.not_lt_zero j)
  | succ n ih =>
    intro pos j hj hrej hfree
    cases j with
    | zero => exact sampleLoop_hit rng T n pos hfree
    | succ m =>
      have h0 : T (rng pos % 52) = 1 := hrej 0 (Nat.succ_pos m)
      have h1 := ih (pos + 1) m (by omega)
        (fun i hi => by
          have := hrej (i + 1) (by omega)
          rw [Nat.add_assoc, Nat.add_comm 1 i]
          exact this)
        (by
          rw [Nat.add_assoc, Nat.add_comm 1 m]
          exact hfree)
      simp only [sampleLoop, CARDS_PER_DECK]
      rw [if_pos h0, h1]
      simp only [Option.some.injEq, Prod.mk.injEq]
      constructor
      · rw [Nat.add_assoc, Nat.add_comm 1 m]
      · omega

/-- A loop that ends within `fuel` samples has drawn `j + 1` of them, with `j < fuel`:
the first `j` hit entries marked dealt, the last one an entry not marked. -/
theorem sampleLoop_spec (rng : Nat → Nat) (T : Table) :
    ∀ (fuel pos rc pos1 : Nat), sampleLoop rng T fuel pos = some (rc, pos1) →
      ∃ j, j < fuel ∧ pos1 = pos + j + 1 ∧ rc = rng (pos + j) % 52 ∧ T rc ≠ 1 ∧
        ∀ i, i < j → T (rng (pos + i) % 52) = 1 := by
  intro fuel
  induction fuel with
  | zero => intro pos rc pos1 h; simp [sampleLoop] at h
  | succ n ih =>
    intro pos rc pos1 h
    simp only [sampleLoop, CARDS_PER_DECK] at h
    by_cases hc : T (rng pos % 52) = 1
    · rw [if_pos hc] at h
      obtain ⟨j, hj, h1, h2, h3, h4⟩ := ih _ _ _ h
      refine ⟨j + 1, by omega, by omega, ?_, h3, ?_⟩
      · rw [h2, Nat.add_assoc, Nat.add_comm 1 j]
      · intro i hi
        cases i with
        | zero => exact hc
        | succ m =>
          have := h4 m (by omega)
          rw [Nat.add_assoc, Nat.add_comm 1 m] at this
          exact this
    · rw [if_neg hc] at h
      simp only [Option.some.injEq, Prod.mk.injEq] at h
      obtain ⟨h1, h2⟩ := h
      refine ⟨0, Nat.succ_pos n, by omega, h1.symm, ?_, fun i hi => absurd hi (Nat.not_lt_zero i)⟩
      rw [← h1]
      exact hc

theorem prepared_rand_calls (st : State) : (prepared st).Rand_calls = st.Rand_calls := by
  unfold prepared
  split_ifs <;> rfl

/-- The state in which a call from a reachable state samples is inside a generation that
is not exhausted. -/
theorem reachable_prepared {rng : Nat → Nat} {st : State} (h : Reachable rng st) :
    ∃ L, InGeneration L (prepared st) ∧ L.length < 52 := by
  rcases reachable_inGeneration h with h0 | ⟨L, g⟩
  · subst h0
    exact ⟨[], by
      rw [prepared_of_unshuffled (show initState.Deck_shuffled = 0 from rfl)]
      exact inGeneration_shuffle initState, by simp⟩
  · by_cases hl : L.length = 52
    · exact ⟨[], by
        rw [prepared_of_unshuffled (g.unshuffled hl)]
        exact inGeneration_shuffle st, by simp⟩
    · have hlt : L.length < 52 := lt_of_le_of_ne g.length_le hl
      exact ⟨L, by rw [prepared_of_shuffled (g.shuffled hlt)]; exact g, hlt⟩

/-- Fewer than 52 distinct indices leave an index of `0..51` out. -/
theorem exists_not_mem {L : List Nat} (hl : L.length < 52) : ∃ i, i < 52 ∧ i ∉ L := by
  by_contra hcon
  have hall : ∀ i, i < 52 → i ∈ L := by
    intro i hi
    by_contra hi1
    exact hcon ⟨i, hi, hi1⟩
  have h0 : (List.range 52).Subperm L :=
    List.subperm_of_subset (List.nodup_range 52) (fun i hi => hall i (List.mem_range.1 hi))
  have h1 := h0.length_le
  rw [List.length_range] at h1
  omega

/-- C11, refuted as stated. On the stream that repeats each value 54 times, the first
call deals index 0 after one sample. The second call starts in a reachable state; its
loop is still running after 52 samples, all of them `0` and rejected, and it ends on the
54th sample, the first `1` of the stream. -/
theorem sampling_exceeds_52 :
    Reachable stuckStream (stateAfter stuckStream 1 1 initState) ∧
      sampleLoop stuckStream (prepared (stateAfter stuckStream 1 1 initState)).Card_taken 52
        (prepared (stateAfter stuckStream 1 1 initState)).Rand_calls = none ∧
      sampleLoop stuckStream (prepared (stateAfter stuckStream 1 1 initState)).Card_taken 54
        (prepared (stateAfter stuckStream 1 1 initState)).Rand_calls = some (1, 55) :=
  ⟨reachable_draws 1 initState _ [(1, 1)] Reachable.init (draws_stateAfter (by decide!)),
    by decide!, by decide!⟩

/-- A free entry among the first `n` samples ends the loop within `n` samples, on an
index below 52 that is not marked dealt. -/
theorem sampleLoop_within (rng : Nat → Nat) (T : Table) (n pos j : Nat) (hj : j < n)
    (hfree : T (rng (pos + j) % 52) ≠ 1) :
    ∃ rc pos1, sampleLoop rng T n pos = some (rc, pos1) ∧ pos1 ≤ pos + n ∧ rc < 52 ∧
      T rc ≠ 1 := by
  obtain ⟨r, hr⟩ := sampleLoop_of_hit rng T n pos j hj hfree
  obtain ⟨rc, pos1⟩ := r
  obtain ⟨k, hk, hpos, hrc, hfree1, -⟩ := sampleLoop_spec rng T n pos rc pos1 hr
  refine ⟨rc, pos1, hr, by omega, ?_, hfree1⟩
  rw [hrc]
  exact Nat.mod_lt _ (by norm_num)

/-- C11, amended. In every reachable state, on every stream and for every `n` (`n = 52`
for the bound of the claim), the sampling loop of a call finds an index below 52 that is
not marked dealt within `n` samples if and only if one of the next `n` values of
`random() % 52` is an index not marked dealt; when all of them are marked dealt the loop
is still sampling after `n` samples. Some index of `0..51` is not marked dealt when the
loop starts, so the loop ends within `n` samples in particular when each index of
`0..51` occurs among the next `n` values. -/
theorem bounded_rejection_sampling (rng : Nat → Nat) (st : State) (h : Reachable rng st)
    (n : Nat) :
    ((∃ rc pos1,
        sampleLoop rng (prepared st).Card_taken n (prepared st).Rand_calls = some (rc, pos1) ∧
        pos1 ≤ st.Rand_calls + n ∧ rc < 52 ∧ (prepared st).Card_taken rc ≠ 1) ↔
      ∃ j, j < n ∧ (prepared st).Card_taken (rng (st.Rand_calls + j) % 52) ≠ 1) ∧
      ((∀ j, j < n → (prepared st).Card_taken (rng (st.Rand_calls + j) % 52) = 1) →
        sampleLoop rng (prepared st).Card_taken n (prepared st).Rand_calls = none) ∧
      (∃ i, i < 52 ∧ (prepared st).Card_taken i ≠ 1) ∧
      ((∀ i, i < 52 → ∃ j, j < n ∧ rng (st.Rand_calls + j) % 52 = i) →
        ∃ rc pos1,
          sampleLoop rng (prepared st).Card_taken n (prepared st).Rand_calls = some (rc, pos1) ∧
          pos1 ≤ st.Rand_calls + n ∧ rc < 52 ∧ (prepared st).Card_taken rc ≠ 1) := by
  obtain ⟨L, g, hl⟩ := reachable_prepared h
  obtain ⟨i, hi, hiL⟩ := exists_not_mem hl
  have hne : (prepared st).Card_taken i ≠ 1 := fun hc => hiL ((g.marked i hi).1 hc)
  have hcalls := prepared_rand_calls st
  have hback : (∃ j, j < n ∧ (prepared st).Card_taken (rng (st.Rand_calls + j) % 52) ≠ 1) →
      ∃ rc pos1,
        sampleLoop rng (prepared st).Card_taken n (prepared st).Rand_calls = some (rc, pos1) ∧
        pos1 ≤ st.Rand_calls + n ∧ rc < 52 ∧ (prepared st).Card_taken rc ≠ 1 := by
    rintro ⟨j, hj, hfree⟩
    rw [hcalls]
    exact sampleLoop_within rng _ n _ j hj hfree
  refine ⟨⟨?_, hback⟩, ?_, ⟨i, hi, hne⟩, ?_⟩
  · rintro ⟨rc, pos1, hs, -, -, -⟩
    obtain ⟨j, hj, -, hrc, hfree, -⟩ := sampleLoop_spec rng _ n _ rc pos1 hs
    rw [hcalls] at hrc
    exact ⟨j, hj, hrc ▸ hfree⟩
  · intro hall
    cases hs : sampleLoop rng (prepared st).Card_taken n (prepared st).Rand_calls with
    | none => rfl
    | some r =>
      obtain ⟨rc, pos1⟩ := r
      obtain ⟨j, hj, -, hrc, hfree, -⟩ := sampleLoop_spec rng _ n _ rc pos1 hs
      rw [hcalls] at hrc
      exact absurd (hrc ▸ hall j hj) hfree
  · intro hcover
    obtain ⟨j, hj, hji⟩ := hcover i hi
    exact hback ⟨j, hj, by rw [hji]; exact hne⟩

/-- The amended C11 in the state after 60 draws on the stream `0, 1, 2, ...`, 8 cards
into the second generation: the next sample, `60 % 52 = 8`, is not marked dealt. -/
theorem bounded_rejection_sampling_witness :
    (Reachable countStream (stateAfter countStream 1 60 initState) ∧
      ∃ j, j < 52 ∧ (prepared (stateAfter countStream 1 60 initState)).Card_taken
        (countStream ((stateAfter countStream 1 60 initState).Rand_calls + j) % 52) ≠ 1) ∧
      ∃ rc pos1,
        sampleLoop countStream (prepared (stateAfter countStream 1 60 initState)).Card_taken 52
          (prepared (stateAfter countStream 1 60 initState)).Rand_calls = some (rc, pos1) ∧
        pos1 ≤ (stateAfter countStream 1 60 initState).Rand_calls + 52 ∧ rc < 52 ∧
        (prepared (stateAfter countStream 1 60 initState)).Card_taken rc ≠ 1 :=
  have hr : Reachable countStream (stateAfter countStream 1 60 initState) :=
    reachable_draws 60 initState _ ((List.range 60).map fun i => cardAt (i % 52))
      Reachable.init (draws_stateAfter (by decide!))
  have hfree : (prepared (stateAfter countStream 1 60 initState)).Card_taken
      (countStream ((stateAfter countStream 1 60 initState).Rand_calls + 0) % 52) ≠ 1 := by
    decide!
  have hj : ∃ j, j < 52 ∧ (prepared (stateAfter countStream 1 60 initState)).Card_taken
      (countStream ((stateAfter countStream 1 60 initState).Rand_calls + j) % 52) ≠ 1 :=
    ⟨0, by decide, hfree⟩
  ⟨⟨hr, hj⟩, (bounded_rejection_sampling countStream _ hr 52).1.2 hj⟩

/-! ## Sampling on a deck that is not exhausted -/

/-- In a reachable state every entry of the dealt table is `0` or `1`. -/
theorem reachable_binary {rng : Nat → Nat} {st : State} (h : Reachable rng st) :
    ∀ i, i < 52 → st.Card_taken i = 0 ∨ st.Card_taken i = 1 := by
  induction h with
  | init => exact fun i _ => Or.inl rfl
  | @step st st1 fuel a b s p _ hc ih =>
    obtain ⟨rc, pos, -, -, -, h3⟩ := card_get_returned hc
    intro i hi
    rw [h3]
    by_cases hir : i = rc
    · right
      rw [hir]
      exact arrSet_same _ _ _
    · have h4 : (dealt (prepared st) rc pos).Card_taken i = (prepared st).Card_taken i :=
        arrSet_ne _ _ hir
      rw [h4]
      by_cases hu : st.Deck_shuffled = 0
      · left
        rw [prepared_of_unshuffled hu]
        exact clearTaken_apply _ hi
      · rw [prepared_of_shuffled hu]
        exact ih i hi

/-- C12. In every reachable state, when `card_get` enters its sampling loop `Num_deals`
is below 52 and some index of `0..51` has `Card_taken == 0`; every sampled index
`random() % 52` is in `0..51`; and on every stream in which each index of `0..51` occurs
after any position the loop ends, so that a call with valid outputs returns. -/
theorem sampling_on_live_deck (rng : Nat → Nat) (st : State) (h : Reachable rng st) :
    (prepared st).Num_deals < 52 ∧
      (∃ i, i < 52 ∧ (prepared st).Card_taken i = 0) ∧
      (∀ k, rng k % CARDS_PER_DECK < 52) ∧
      ((∀ i, i < 52 → ∀ pos, ∃ k, pos ≤ k ∧ rng k % 52 = i) →
        (∃ fuel r,
          sampleLoop rng (prepared st).Card_taken fuel (prepared st).Rand_calls = some r) ∧
        ∀ a b, ∃ fuel s p st1,
          card_get rng fuel st (Ptr.addr a) (Ptr.addr b) = Outcome.returned s p st1) := by
  obtain ⟨L, g, hl⟩ := reachable_prepared h
  obtain ⟨i, hi, hiL⟩ := exists_not_mem hl
  have hne : (prepared st).Card_taken i ≠ 1 := fun hc => hiL ((g.marked i hi).1 hc)
  have hzero : (prepared st).Card_taken i = 0 := by
    by_cases hu : st.Deck_shuffled = 0
    · rw [prepared_of_unshuffled hu]
      exact clearTaken_apply _ hi
    · rw [prepared_of_shuffled hu] at hne ⊢
      rcases reachable_binary h i hi with h0 | h1
      · exact h0
      · exact absurd h1 hne
  refine ⟨?_, ⟨i, hi, hzero⟩, fun k => Nat.mod_lt _ (by decide), ?_⟩
  · rw [g.deals]
    exact_mod_cast hl
  · intro hstream
    obtain ⟨k, hk, hki⟩ := hstream i hi (prepared st).Rand_calls
    have hfree : (prepared st).Card_taken
        (rng ((prepared st).Rand_calls + (k - (prepared st).Rand_calls)) % 52) ≠ 1 := by
      rw [Nat.add_sub_cancel' hk, hki]
      exact hne
    obtain ⟨r, hr⟩ := sampleLoop_of_hit rng _ (k - (prepared st).Rand_calls + 1) _
      (k - (prepared st).Rand_calls) (Nat.lt_succ_self _) hfree
    refine ⟨⟨_, r, hr⟩, fun a b => ⟨k - (prepared st).Rand_calls + 1, ?_⟩⟩
    obtain ⟨rc, pos⟩ := r
    rw [card_get_eq, hr]
    exact ⟨_, _, _, rfl⟩

/-- The statement C12 in the state after 60 draws on the stream `0, 1, 2, ...`, in which
the index `i` occurs at the position `52 * pos + i`, after any position `pos`. -/
theorem sampling_on_live_deck_witness :
    (Reachable countStream (stateAfter countStream 1 60 initState) ∧
      ∀ i, i < 52 → ∀ pos, ∃ k, pos ≤ k ∧ countStream k % 52 = i) ∧
      (prepared (stateAfter countStream 1 60 initState)).Num_deals < 52 ∧
      (∃ i, i < 52 ∧ (prepared (stateAfter countStream 1 60 initState)).Card_taken i = 0) ∧
      (∃ fuel r,
        sampleLoop countStream (prepared (stateAfter countStream 1 60 initState)).Card_taken
          fuel (prepared (stateAfter countStream 1 60 initState)).Rand_calls = some r) ∧
      ∀ a b, ∃ fuel s p st1,
        card_get countStream fuel (stateAfter countStream 1 60 initState) (Ptr.addr a)
          (Ptr.addr b) = Outcome.returned s p st1 :=
  have hr : Reachable countStream (stateAfter countStream 1 60 initState) :=
    reachable_draws 60 initState _ ((List.range 60).map fun i => cardAt (i % 52))
      Reachable.init (draws_stateAfter (by decide!))
  have hs : ∀ i, i < 52 → ∀ pos, ∃ k, pos ≤ k ∧ countStream k % 52 = i :=
    fun i hi pos => ⟨52 * pos + i, by omega, by
      show (52 * pos + i) % 52 = i
      omega⟩
  have hc := sampling_on_live_deck countStream _ hr
  ⟨⟨hr, hs⟩, hc.1, hc.2.1, hc.2.2.2 hs⟩

/-! ## The draw step -/

/-- C13. In a reachable state, let `r = rng (Rand_calls + j) % 52` be the first sample of
the call whose entry is not marked dealt in the state `prepared st` in which the call
samples (the state after the populate step when the deck is not marked shuffled, the
state `st` itself otherwise). With valid outputs and `j < fuel` the call returns
`suit = r / 13 + 1` and `pattern = r % 13 + 1` after `j + 1` calls of `random()`, sets
`Card_taken[r]` to 1, leaves every other entry of `Card_taken` as it is in `prepared st`
and increases `Num_deals` by exactly 1 from its value there, which is `0` with no entry
marked when the call has populated the deck. -/
theorem single_draw_step (rng : Nat → Nat) (st : State) (h : Reachable rng st)
    (a b j fuel : Nat)
    (hrej : ∀ i, i < j → (prepared st).Card_taken (rng (st.Rand_calls + i) % 52) = 1)
    (hfree : (prepared st).Card_taken (rng (st.Rand_calls + j) % 52) ≠ 1)
    (hfuel : j < fuel) :
    (∃ st1,
      card_get rng fuel st (Ptr.addr a) (Ptr.addr b) =
        Outcome.returned (rng (st.Rand_calls + j) % 52 / 13 + 1)
          (rng (st.Rand_calls + j) % 52 % 13 + 1) st1 ∧
      st1.Random_card = rng (st.Rand_calls + j) % 52 ∧
      st1.Rand_calls = st.Rand_calls + j + 1 ∧
      st1.Card_taken (rng (st.Rand_calls + j) % 52) = 1 ∧
      (∀ i, i ≠ rng (st.Rand_calls + j) % 52 →
        st1.Card_taken i = (prepared st).Card_taken i) ∧
      st1.Num_deals = (prepared st).Num_deals + 1) ∧
      (st.Deck_shuffled ≠ FALSE → prepared st = st) ∧
      (st.Deck_shuffled = FALSE →
        (prepared st).Num_deals = 0 ∧ ∀ i, i < 52 → (prepared st).Card_taken i = 0) := by
  obtain ⟨L, g, -⟩ := reachable_prepared h
  have hlt : rng (st.Rand_calls + j) % 52 < 52 := Nat.mod_lt _ (by norm_num)
  have hs := sampleLoop_first rng (prepared st).Card_taken fuel (prepared st).Rand_calls j
    hfuel (by rw [prepared_rand_calls]; exact hrej) (by rw [prepared_rand_calls]; exact hfree)
  rw [prepared_rand_calls] at hs
  refine ⟨⟨dealt (prepared st) (rng (st.Rand_calls + j) % 52) (st.Rand_calls + j + 1),
    ?_, rfl, rfl, arrSet_same _ _ _, fun i hi => arrSet_ne _ _ hi, rfl⟩, ?_, ?_⟩
  · rw [card_get_eq, prepared_rand_calls, hs]
    simp only [(g.populated _ hlt).1, (g.populated _ hlt).2]
  · exact fun hu => prepared_of_shuffled hu
  · intro hu
    rw [prepared_of_unshuffled hu]
    exact ⟨rfl, fun i hi => clearTaken_apply _ hi⟩

/-- The statement C13 on the fourth call on the stream `0, 0, 1, 1, 2, 2, ...`: its first
sample `2` is rejected and its second sample `3` is dealt. -/
theorem single_draw_step_witness :
    (Reachable pairStream (stateAfter pairStream 2 3 initState) ∧
      (∀ i, i < 1 → (prepared (stateAfter pairStream 2 3 initState)).Card_taken
        (pairStream ((stateAfter pairStream 2 3 initState).Rand_calls + i) % 52) = 1) ∧
      (prepared (stateAfter pairStream 2 3 initState)).Card_taken
        (pairStream ((stateAfter pairStream 2 3 initState).Rand_calls + 1) % 52) ≠ 1 ∧
      pairStream ((stateAfter pairStream 2 3 initState).Rand_calls + 1) % 52 = 3) ∧
      (∃ st1,
        card_get pairStream 2 (stateAfter pairStream 2 3 initState) (Ptr.addr 0) (Ptr.addr 1) =
          Outcome.returned
            (pairStream ((stateAfter pairStream 2 3 initState).Rand_calls + 1) % 52 / 13 + 1)
            (pairStream ((stateAfter pairStream 2 3 initState).Rand_calls + 1) % 52 % 13 + 1)
            st1 ∧
        st1.Random_card
          = pairStream ((stateAfter pairStream 2 3 initState).Rand_calls + 1) % 52 ∧
        st1.Rand_calls = (stateAfter pairStream 2 3 initState).Rand_calls + 1 + 1 ∧
        st1.Card_taken
          (pairStream ((stateAfter pairStream 2 3 initState).Rand_calls + 1) % 52) = 1 ∧
        (∀ i, i ≠ pairStream ((stateAfter pairStream 2 3 initState).Rand_calls + 1) % 52 →
          st1.Card_taken i = (prepared (stateAfter pairStream 2 3 initState)).Card_taken i) ∧
        st1.Num_deals = (prepared (stateAfter pairStream 2 3 initState)).Num_deals + 1) ∧
      ((stateAfter pairStream 2 3 initState).Deck_shuffled ≠ FALSE →
        prepared (stateAfter pairStream 2 3 initState) = stateAfter pairStream 2 3 initState) ∧
      ((stateAfter pairStream 2 3 initState).Deck_shuffled = FALSE →
        (prepared (stateAfter pairStream 2 3 initState)).Num_deals = 0 ∧
        ∀ i, i < 52 → (prepared (stateAfter pairStream 2 3 initState)).Card_taken i = 0) :=
  have hr : Reachable pairStream (stateAfter pairStream 2 3 initState) :=
    reachable_draws 3 initState _ [(1, 1), (1, 2), (1, 3)] Reachable.init
      (draws_stateAfter (by decide!))
  have hrej : ∀ i, i < 1 → (prepared (stateAfter pairStream 2 3 initState)).Card_taken
      (pairStream ((stateAfter pairStream 2 3 initState).Rand_calls + i) % 52) = 1 := by
    decide!
  have hfree : (prepared (stateAfter pairStream 2 3 initState)).Card_taken
      (pairStream ((stateAfter pairStream 2 3 initState).Rand_calls + 1) % 52) ≠ 1 := by
    decide!
  ⟨⟨hr, hrej, hfree, by decide!⟩,
    single_draw_step pairStream _ hr 0 1 1 2 hrej hfree (by decide)⟩

end Blackjack
